import Mathlib

/-!
Verification development for the Writerly VS Code extension's core:
the document line-classification walker (`src/DocumentWalker.ts`),
the structural validator (`src/StaticValidator.ts`) and the cross-file
handle index (`src/LinkProvider.ts`).  Every definition below is a
shallow embedding of the corresponding TypeScript function, keeping the
source's names and control structure.  Host-API objects (documents,
diagnostics, maps) are modelled by plain data: a document is a path plus
its list of raw text lines, a JavaScript `Map` is an insertion-ordered
association list.
-/

set_option autoImplicit false

namespace Writerly

/-! ## JavaScript string primitives used by the source -/

/-- The whitespace characters recognized by JavaScript's `trimEnd` and by
the regex class `\s` (ASCII whitespace plus no-break space; the remaining
Unicode space separators never occur in the inputs considered here). -/
def isJsWhitespace (c : Char) : Bool :=
  c = ' ' || c = '\t' || c = '\n' || c = '\r' || c = '\x0b' || c = '\x0c' || c = ' '

/-- JavaScript `String.prototype.trimEnd`. -/
def jsTrimEnd (s : String) : String :=
  String.mk ((s.data.reverse.dropWhile isJsWhitespace).reverse)

/-- JavaScript `String.prototype.startsWith` on character lists. -/
def charsStartWith : List Char → List Char → Bool
  | _, [] => true
  | [], _ :: _ => false
  | c :: cs, d :: ds => c = d && charsStartWith cs ds

/-- JavaScript `String.prototype.startsWith`. -/
def jsStartsWith (s pre : String) : Bool :=
  charsStartWith s.data pre.data

/-- JavaScript `String.prototype.endsWith`. -/
def jsEndsWith (s suffix : String) : Bool :=
  charsStartWith s.data.reverse suffix.data.reverse

/-- First index at which `needle` occurs in `haystack`, as in JavaScript's
`String.prototype.indexOf` (`none` standing for `-1`). -/
def charsIndexOf : List Char → List Char → Option Nat
  | cs, needle =>
    if charsStartWith cs needle then some 0
    else match cs with
      | [] => none
      | _ :: rest => (charsIndexOf rest needle).map (· + 1)

/-- JavaScript `String.prototype.indexOf` (`none` standing for `-1`). -/
def jsIndexOf (haystack needle : String) : Option Nat :=
  charsIndexOf haystack.data needle.data

/-! ## Document Walker (`src/DocumentWalker.ts`) -/

/-- `Zone` enum of `DocumentWalker.ts`. -/
inductive Zone where
  | Attribute
  | Text
  | CodeBlock
  deriving DecidableEq, Repr

/-- `State` type of `DocumentWalker.ts`.  Indents are JavaScript numbers
holding non-negative integers; `Number.MAX_VALUE` is modelled by its exact
integer value. -/
structure State where
  zone : Zone
  maxIndent : Nat
  minIndent : Nat
  codeBlockStartIndent : Nat
  codeBlockStartLineNumber : Nat
  deriving DecidableEq, Repr

/-- The exact integer value of JavaScript's `Number.MAX_VALUE`,
`(2^53 - 1) * 2^971`, written out as a literal so that concrete
computations reduce without exponentiation. -/
def NUMBER_MAX_VALUE : Nat := 179769313486231570814527423731704356798070567525844996598917476803157260780028538760589558632766878171540458953514382464234321326889464182768467546703537516986049910576551282076245490090389328944075868508455133942304583236903222948165808559332123348274797826204144723168738177180919299881250404026184124858368

/-- `LineType` enum of `DocumentWalker.ts`. -/
inductive LineType where
  | Tag
  | CodeBlockOpening
  | CodeBlockClosing
  | Attribute
  | AttributeZoneComment
  | Text
  | TextZoneComment
  | TextZoneEmptyLine
  | CodeBlockLine
  deriving DecidableEq, Repr

/-- Character class `[a-zA-Z_]` (start of an attribute key in the walker's
attribute test, and start of a handle name). -/
def isAttrStartChar (c : Char) : Bool :=
  ('a' ≤ c && c ≤ 'z') || ('A' ≤ c && c ≤ 'Z') || c = '_'

/-- Character class `[-a-zA-Z0-9._:]` (body of an attribute key). -/
def isAttrBodyChar (c : Char) : Bool :=
  c = '-' || ('a' ≤ c && c ≤ 'z') || ('A' ≤ c && c ≤ 'Z') ||
    ('0' ≤ c && c ≤ '9') || c = '.' || c = '_' || c = ':'

/-- Does `[a-zA-Z_][-a-zA-Z0-9._:]*=` match starting at the head of the
character list? -/
def attrKeyAt : List Char → Bool
  | [] => false
  | c :: cs => isAttrStartChar c && attrKeyTail cs
where
  /-- After the start character: zero or more body characters then `=`. -/
  attrKeyTail : List Char → Bool
    | [] => false
    | d :: ds => d = '=' || (isAttrBodyChar d && attrKeyTail ds)

/-- Unanchored test of `/([a-zA-Z_][-a-zA-Z0-9._:]*=)/` against a string,
as used by `updateStateInAttributeZone`. -/
def attrKeyTest (content : String) : Bool :=
  go content.data
where
  go : List Char → Bool
    | [] => false
    | c :: cs => attrKeyAt (c :: cs) || go cs

/-- `updateStateInTextZone` of `DocumentWalker.ts`: returns the mutated
state together with the line's classification. -/
def updateStateInTextZone (state : State) (lineNumber indent : Nat)
    (content : String) : State × LineType :=
  if jsStartsWith content "|>" then
    ({ state with zone := Zone.Attribute,
                  maxIndent := min state.maxIndent indent + 4 }, LineType.Tag)
  else if jsStartsWith content "```" then
    ({ state with zone := Zone.CodeBlock,
                  codeBlockStartIndent := indent,
                  codeBlockStartLineNumber := lineNumber,
                  minIndent := min state.maxIndent indent,
                  maxIndent := NUMBER_MAX_VALUE }, LineType.CodeBlockOpening)
  else if content = "" then
    (state, LineType.TextZoneEmptyLine)
  else
    ({ state with maxIndent := min state.maxIndent indent },
      if jsStartsWith content "!!" then LineType.TextZoneComment else LineType.Text)

/-- `updateStateInAttributeZone` of `DocumentWalker.ts` (the fall-through
branch moves the zone to `Text` and re-runs the text-zone handler on the
same line). -/
def updateStateInAttributeZone (state : State) (lineNumber indent : Nat)
    (content : String) : State × LineType :=
  if indent = state.maxIndent && jsStartsWith content "!!" then
    (state, LineType.AttributeZoneComment)
  else if indent = state.maxIndent && attrKeyTest content then
    (state, LineType.Attribute)
  else
    updateStateInTextZone { state with zone := Zone.Text } lineNumber indent content

/-- `updateStateInCodeBlockZone` of `DocumentWalker.ts`. -/
def updateStateInCodeBlockZone (state : State) (indent : Nat)
    (content : String) : State × LineType :=
  if content = "```" && indent = state.codeBlockStartIndent then
    ({ state with zone := Zone.Text,
                  maxIndent := state.minIndent,
                  minIndent := 0 }, LineType.CodeBlockClosing)
  else
    (state, LineType.CodeBlockLine)

/-- `updateState` of `DocumentWalker.ts`: dispatch on the current zone. -/
def updateState (state : State) (lineNumber indent : Nat)
    (content : String) : State × LineType :=
  match state.zone with
  | Zone.Attribute => updateStateInAttributeZone state lineNumber indent content
  | Zone.Text => updateStateInTextZone state lineNumber indent content
  | Zone.CodeBlock => updateStateInCodeBlockZone state indent content

/-- The data handed to the per-line callback by `walk` (the snapshot of
the state before the line, the classification, the state after the line,
and the line's number, indent and trimmed content). -/
structure Step where
  stateBeforeLine : State
  lineType : LineType
  stateAfterLine : State
  lineNumber : Nat
  indent : Nat
  content : String
  deriving DecidableEq, Repr

/-- Per-line preprocessing in `walk`: right-trim the raw line, count the
leading spaces (`/^( *)/`), and strip them off to obtain the content. -/
def splitLine (raw : String) : Nat × String :=
  let line := jsTrimEnd raw
  let indent := (line.data.takeWhile (· = ' ')).length
  (indent, String.mk (line.data.drop indent))

/-- The initial `WalkState` of `walk`. -/
def initialState : State :=
  { zone := Zone.Text, maxIndent := 0, minIndent := 0,
    codeBlockStartIndent := 0, codeBlockStartLineNumber := 0 }

/-- The line-processing loop of `WriterlyDocumentWalker.walk`, returning
the sequence of callback invocations and the final state. -/
def walkAux : State → Nat → List String → List Step × State
  | state, _, [] => ([], state)
  | state, lineNumber, raw :: rest =>
    let indent := (splitLine raw).1
    let content := (splitLine raw).2
    let newState := (updateState state lineNumber indent content).1
    let lineType := (updateState state lineNumber indent content).2
    let r := walkAux newState (lineNumber + 1) rest
    ({ stateBeforeLine := state, lineType := lineType, stateAfterLine := newState,
       lineNumber := lineNumber, indent := indent, content := content } :: r.1,
      r.2)

/-- A document as handed to the walker: a stable path plus its list of
raw text lines. -/
structure WlyDocument where
  fsPath : String
  lines : List String
  deriving DecidableEq, Repr

/-- `WriterlyDocumentWalker.walk` on a whole document. -/
def walk (document : WlyDocument) : List Step × State :=
  walkAux initialState 0 document.lines

/-! ## Structural validator (`src/StaticValidator.ts`) -/

/-- Diagnostic severities used by the extension. -/
inductive Severity where
  | error
  | warning
  deriving DecidableEq, Repr

/-- A single-line source range (all diagnostics of the validator and of
the handle index are single-line). -/
structure Range where
  startLine : Nat
  startCol : Nat
  endLine : Nat
  endCol : Nat
  deriving DecidableEq, Repr

/-- `lineRange` of `StaticValidator.ts`. -/
def lineRange (lineNumber start finish : Nat) : Range :=
  { startLine := lineNumber, startCol := start, endLine := lineNumber, endCol := finish }

/-- A diagnostic as pushed by the validator and the handle index. -/
structure Diagnostic where
  range : Range
  message : String
  severity : Severity
  deriving DecidableEq, Repr

/-- `errorDiagnostic` of `StaticValidator.ts`. -/
def errorDiagnostic (range : Range) (message : String) : Diagnostic :=
  { range := range, message := message, severity := Severity.error }

/-- `d1` of `StaticValidator.ts`. -/
def d1 (lineNumber indent : Nat) : Diagnostic :=
  errorDiagnostic (lineRange lineNumber 0 indent) "Indentation too large"

/-- `d2` of `StaticValidator.ts`. -/
def d2 (lineNumber indent : Nat) : Diagnostic :=
  errorDiagnostic (lineRange lineNumber 0 indent) "Indentation not a multiple of 4"

/-- `d3` of `StaticValidator.ts` (the message typo is the source's). -/
def d3 (lineNumber indent : Nat) : Diagnostic :=
  errorDiagnostic (lineRange lineNumber 0 indent) "Indentation tew low"

/-- `d4` of `StaticValidator.ts`. -/
def d4 (lineNumber indent : Nat) (content : String) : Diagnostic :=
  errorDiagnostic (lineRange lineNumber indent (indent + content.length))
    "Code block opening inside of code block"

/-- `d5` of `StaticValidator.ts` (anchored at the unclosed opening fence). -/
def d5 (state : State) : Diagnostic :=
  errorDiagnostic
    (lineRange state.codeBlockStartLineNumber state.codeBlockStartIndent
      (state.codeBlockStartIndent + 3))
    "Unclosed code block"

/-- `d6` of `StaticValidator.ts` (anchored at the document's last line,
spanning its raw text). -/
def d6 (document : WlyDocument) : Diagnostic :=
  errorDiagnostic
    (lineRange (document.lines.length - 1) 0 ((document.lines.getLastD "").length))
    "Unclosed code block"

/-- `d7` of `StaticValidator.ts`. -/
def d7 (lineNumber indent : Nat) (content : String) : Diagnostic :=
  errorDiagnostic (lineRange lineNumber (indent + 2) (indent + content.length))
    "Empty tag"

/-- `d8` of `StaticValidator.ts`. -/
def d8 (lineNumber indent : Nat) (content : String) (numSpaces : Nat) : Diagnostic :=
  errorDiagnostic (lineRange lineNumber (indent + 2 + numSpaces) (indent + content.length))
    "Invalid tag. Tag names must start with a letter, underscore, or colon, followed by letters, numbers, hyphens, underscores, dots, or colons."

/-- `d9` of `StaticValidator.ts`. -/
def d9 (lineNumber indent : Nat) (content : String) : Diagnostic :=
  errorDiagnostic (lineRange lineNumber (indent + 3) (indent + content.length))
    "Spaces in code block info annotation"

/-- `d10` of `StaticValidator.ts`. -/
def d10 (lineNumber indent numTabs : Nat) : Diagnostic :=
  errorDiagnostic (lineRange lineNumber indent (indent + numTabs))
    "Tabs in initial whitespace"

/-- `validTagPattern` (`^[a-zA-Z_:][-a-zA-Z0-9._:]*$`) as a full-string
test. -/
def validTagTest (tagName : String) : Bool :=
  match tagName.data with
  | [] => false
  | c :: cs => (isAttrStartChar c || c = ':') && cs.all isAttrBodyChar

/-- `validateTag` of `StaticValidator.ts` (the isolating pattern
`^\|\>(\s*)(.*)$` splits the text after the marker into its leading
whitespace run and the tag name). -/
def validateTag (lineNumber indent : Nat) (content : String) : List Diagnostic :=
  if content = "|>" then [d7 lineNumber indent content]
  else if jsStartsWith content "|>" then
    let afterMarker := content.data.drop 2
    let numSpaces := (afterMarker.takeWhile isJsWhitespace).length
    let tagName := String.mk (afterMarker.dropWhile isJsWhitespace)
    if validTagTest tagName then [] else [d8 lineNumber indent content numSpaces]
  else []

/-- `validateCodeBlockInfoAnnotation` of `StaticValidator.ts`: the fence's
info text may not contain an interior space (`content.indexOf(" ") > 0`). -/
def validateCodeBlockInfo (lineNumber indent : Nat) (content : String) : List Diagnostic :=
  match jsIndexOf content " " with
  | some i => if 0 < i then [d9 lineNumber indent content] else []
  | none => []

/-- `validateCodeBlockLine` of `StaticValidator.ts`: a nested fence at the
opening fence's exact indent is an error. -/
def validateCodeBlockLine (stateBeforeLine : State) (lineNumber indent : Nat)
    (content : String) : List Diagnostic :=
  if jsStartsWith content "```" && indent = stateBeforeLine.codeBlockStartIndent then
    [d4 lineNumber indent content]
  else []

/-- `validateText` of `StaticValidator.ts`: tab characters in the leading
whitespace of a text line. -/
def validateText (lineNumber indent : Nat) (content : String) : List Diagnostic :=
  if jsStartsWith content "\t" then
    [d10 lineNumber indent ((content.data.takeWhile (· = '\t')).length)]
  else []

/-- `validateIndentation` of `StaticValidator.ts`. -/
def validateIndentation (stateBeforeLine : State) (lineType : LineType)
    (stateAfterLine : State) (lineNumber indent : Nat) (content : String) :
    List Diagnostic :=
  if content = "" then []
  else if lineType = LineType.CodeBlockClosing && stateAfterLine.maxIndent < indent then
    [d1 lineNumber indent]
  else if indent < stateBeforeLine.minIndent then
    [d3 lineNumber stateBeforeLine.minIndent]
  else if stateBeforeLine.maxIndent < indent then
    [d1 lineNumber indent]
  else if indent % 4 ≠ 0 then
    [d2 lineNumber indent]
  else []

/-- `validateContent` of `StaticValidator.ts`. -/
def validateContent (stateBeforeLine : State) (lineType : LineType)
    (lineNumber indent : Nat) (content : String) : List Diagnostic :=
  match lineType with
  | LineType.Tag => validateTag lineNumber indent content
  | LineType.CodeBlockOpening => validateCodeBlockInfo lineNumber indent content
  | LineType.CodeBlockLine => validateCodeBlockLine stateBeforeLine lineNumber indent content
  | LineType.Text => validateText lineNumber indent content
  | _ => []

/-- `validateLine` of `StaticValidator.ts`: indentation checks then
content checks, in the source's push order. -/
def validateLine (stateBeforeLine : State) (lineType : LineType)
    (stateAfterLine : State) (lineNumber indent : Nat) (content : String) :
    List Diagnostic :=
  validateIndentation stateBeforeLine lineType stateAfterLine lineNumber indent content
    ++ validateContent stateBeforeLine lineType lineNumber indent content

/-- `validateFinalState` of `StaticValidator.ts`: an unterminated code
block yields one diagnostic at the opening fence and one at the last
line. -/
def validateFinalState (document : WlyDocument) (finalState : State) : List Diagnostic :=
  if finalState.zone = Zone.CodeBlock then [d5 finalState, d6 document] else []

/-! ## Handle-name grammar (`src/LinkProvider.ts`, `HANDLE_REGEX_STRING`)

`HANDLE_REGEX_STRING` is the alternation
`([S][B]*[E])|[S]` with `S = [a-zA-Z_]`, `B = [-a-zA-Z0-9._%^+]`,
`E = [a-zA-Z0-9_^]`. -/

/-- `HANDLE_START_CHARS` (`a-zA-Z_`). -/
def isHandleStartChar (c : Char) : Bool :=
  ('a' ≤ c && c ≤ 'z') || ('A' ≤ c && c ≤ 'Z') || c = '_'

/-- `HANDLE_BODY_CHARS` (`-a-zA-Z0-9._%^+`). -/
def isHandleBodyChar (c : Char) : Bool :=
  c = '-' || ('a' ≤ c && c ≤ 'z') || ('A' ≤ c && c ≤ 'Z') ||
    ('0' ≤ c && c ≤ '9') || c = '.' || c = '_' || c = '%' || c = '^' || c = '+'

/-- `HANDLE_END_CHARS` (`a-zA-Z0-9_^`). -/
def isHandleEndChar (c : Char) : Bool :=
  ('a' ≤ c && c ≤ 'z') || ('A' ≤ c && c ≤ 'Z') || ('0' ≤ c && c ≤ '9') ||
    c = '_' || c = '^'

/-- Full match of `[B]*[E]` against a non-empty remainder: every
character but the last is a body character and the last is an end
character (regex backtracking makes any such decomposition a match). -/
def handleBodyEnd : List Char → Bool
  | [] => false
  | [c] => isHandleEndChar c
  | c :: cs => isHandleBodyChar c && handleBodyEnd cs

/-- Full-string match of `^(([S][B]*[E])|[S])$`: this is the regex built
(with grouping parentheses) by `validateHandleDefinitions`. -/
def strictFullMatch (s : String) : Bool :=
  match s.data with
  | [] => false
  | [c] => isHandleStartChar c
  | c :: cs => isHandleStartChar c && handleBodyEnd cs

/-- Does some split of the list into `[B]*` then `[E]` then anything
exist?  (Prefix match of `[B]*[E]` followed by arbitrary text.) -/
def sbeBodyFind : List Char → Bool
  | [] => false
  | c :: cs => isHandleEndChar c || (isHandleBodyChar c && sbeBodyFind cs)

/-- Prefix match of `^([S][B]*[E])`: the string starts with a complete
handle of the two-or-more-character form. -/
def strictHeadMatch (s : String) : Bool :=
  match s.data with
  | [] => false
  | c :: cs => isHandleStartChar c && sbeBodyFind cs

/-- Search match of `[S]$`: the string's last character is a handle start
character. -/
def lastCharIsStart (s : String) : Bool :=
  match s.data.getLast? with
  | none => false
  | some c => isHandleStartChar c

/-- The test performed by `validateHandleUsage`'s
`new RegExp("^" + HANDLE_REGEX_STRING + "$")`: because
`HANDLE_REGEX_STRING` is an unparenthesized alternation, the pattern is
`(^([S][B]*[E]))|([S]$)` — the start anchor binds only to the first
alternative and the end anchor only to the second. -/
def usageStrictTest (s : String) : Bool :=
  strictHeadMatch s || lastCharIsStart s

/-! ## Loose extraction regexes (`LOOSE_DEF_REGEX`, `LOOSE_USAGE_REGEX`) -/

/-- A character allowed in a loosely-captured usage name: the class
`[^\s|\x7d:]` of `LOOSE_USAGE_REGEX`. -/
def isLooseUsageChar (c : Char) : Bool :=
  !(isJsWhitespace c) && c ≠ '|' && c ≠ '\x7d' && c ≠ ':'

/-- A character allowed in a loosely-captured definition name: the class
`[^\s:|]` of `LOOSE_DEF_REGEX`. -/
def isLooseDefChar (c : Char) : Bool :=
  !(isJsWhitespace c) && c ≠ ':' && c ≠ '|'

/-- Match of `LOOSE_DEF_REGEX` (`^\s*handle=\s*([^\s:|]+)`) against a
line's content, returning the whole match and the captured name. -/
def looseDefMatch (content : String) : Option (String × String) :=
  let cs := content.data
  let ws1 := cs.takeWhile isJsWhitespace
  let rest1 := cs.drop ws1.length
  if charsStartWith rest1 "handle=".data then
    let rest2 := rest1.drop 7
    let ws2 := rest2.takeWhile isJsWhitespace
    let rest3 := rest2.drop ws2.length
    let run := rest3.takeWhile isLooseDefChar
    if run.isEmpty then none
    else some (String.mk (ws1 ++ "handle=".data ++ ws2 ++ run), String.mk run)
  else none

/-- The repeated-`exec` loop of `LOOSE_USAGE_REGEX` (`/>>([^\s|\x7d:]+)/g`)
over a line's content: each match is an index and a captured name; after
a match scanning resumes past it, and a bare `>>` not followed by a name
character advances by one position. -/
def scanUsagesGo : Nat → List Char → Nat → List (Nat × String)
  | 0, _, _ => []
  | Nat.succ fuel, cs, i =>
    match cs with
    | '>' :: '>' :: rest =>
      let run := rest.takeWhile isLooseUsageChar
      if run.isEmpty then scanUsagesGo fuel ('>' :: rest) (i + 1)
      else (i, String.mk run) :: scanUsagesGo fuel (rest.drop run.length) (i + 2 + run.length)
    | _ :: rest => scanUsagesGo fuel rest (i + 1)
    | [] => []

/-- The scan consumes at least one character per step, so the remaining
length is enough fuel. -/
def scanUsages (cs : List Char) (i : Nat) : List (Nat × String) :=
  scanUsagesGo cs.length cs i

/-! ## Handle index state (`src/LinkProvider.ts`)

A JavaScript `Map` is modelled as an insertion-ordered association list
without duplicate keys: `get` finds the first entry, `set` replaces in
place or appends, `delete` removes the entry. -/

/-- JavaScript `Map.get` (`none` standing for `undefined`): the value of
the first — in a well-formed map, only — entry with this key. -/
def mget {β : Type} : List (String × β) → String → Option β
  | [], _ => none
  | e :: es, k => if e.1 = k then some e.2 else mget es k

/-- JavaScript `Map.set`: replace in place, else append. -/
def mset {β : Type} : List (String × β) → String → β → List (String × β)
  | [], k, v => [(k, v)]
  | e :: es, k, v => if e.1 = k then (k, v) :: es else e :: mset es k v

/-- JavaScript `Map.delete`. -/
def mdelete {β : Type} (m : List (String × β)) (k : String) : List (String × β) :=
  m.filter (fun e => e.1 ≠ k)

/-- A JavaScript `Map` never holds two entries with the same key; states
built by the provider's own operations satisfy this. -/
def keysNodup {β : Type} (m : List (String × β)) : Prop :=
  (m.map (fun e => e.1)).Nodup

/-- `ValidationState` enum of `LinkProvider.ts`. -/
inductive ValidationState where
  | unknown
  | ok
  | error
  deriving DecidableEq, Repr

/-- The `data` field attached to a `DocumentLink`. -/
structure LinkData where
  handleName : String
  fsPath : String
  validated : ValidationState
  deriving DecidableEq, Repr

/-- A `vscode.DocumentLink` with the provider's custom `data`. -/
structure DocumentLink where
  range : Range
  data : LinkData
  deriving DecidableEq, Repr

/-- `HandleDefinition` of `LinkProvider.ts`. -/
structure HandleDefinition where
  fsPath : String
  range : Range
  deriving DecidableEq, Repr

/-- `FILE_EXTENSION`. -/
def FILE_EXTENSION : String := ".wly"

/-- `PARENT_SUFFIX`. -/
def PARENT_SUFFIX : String := "__parent.wly"

/-- `PARENT_SUFFIX_LENGTH`. -/
def PARENT_SUFFIX_LENGTH : Nat := 12

/-- `MAX_FILES`: cap passed to every workspace `findFiles` query. -/
def MAX_FILES : Nat := 1500

/-- The provider's mutable maps (`definitions`, `parents`,
`documentLinks`, `usageCounts`, `isInitialized`).  The diagnostic
collection is UI state and is not part of the model; diagnostics are
returned by the operations that compute them. -/
structure IndexState where
  definitions : List (String × List HandleDefinition)
  parents : List String
  documentLinks : List (String × List DocumentLink)
  usageCounts : List (String × Int)
  isInitialized : Bool
  deriving Repr

/-- Host-side inputs read by the provider: the first workspace folder (if
any) and the user's `writerly.enableUnusedHandleWarnings` setting (if
set). -/
structure HostConfig where
  workspaceRoot : Option String
  enableUnusedHandleWarnings : Option Bool
  deriving Repr

/-- `isUnusedWarningEnabled`: configuration read with default `true`. -/
def isUnusedWarningEnabled (cfg : HostConfig) : Bool :=
  cfg.enableUnusedHandleWarnings.getD true

/-- `isPathUnderParent` of `LinkProvider.ts`: a plain
`String.prototype.startsWith` test. -/
def isPathUnderParent (filePath parentPath : String) : Bool :=
  jsStartsWith filePath parentPath

/-- `isInSameDocumentTree` of `LinkProvider.ts`. -/
def isInSameDocumentTree (parents : List String)
    (currentFsPath definitionFsPath : String) : Bool :=
  currentFsPath = definitionFsPath ||
    parents.any (fun parentPath =>
      isPathUnderParent currentFsPath parentPath &&
        isPathUnderParent definitionFsPath parentPath)

/-- `findValidDefinitions` of `LinkProvider.ts`. -/
def findValidDefinitions (definitions : List (String × List HandleDefinition))
    (parents : List String) (handleName currentFsPath : String) :
    List HandleDefinition :=
  match mget definitions handleName with
  | none => []
  | some ds =>
    if ds.isEmpty then []
    else ds.filter (fun d => isInSameDocumentTree parents currentFsPath d.fsPath)

/-- `getRelativeWorkspacePath` of `LinkProvider.ts`. -/
def getRelativeWorkspacePath (cfg : HostConfig) (fullPath : String) : String :=
  let basename :=
    let last := (fullPath.split (fun c => c = '/' || c = '\\')).getLastD ""
    if last = "" then fullPath else last
  match cfg.workspaceRoot with
  | none => basename
  | some workspaceRoot =>
    if jsStartsWith fullPath workspaceRoot then
      let sliced := String.mk (fullPath.data.drop workspaceRoot.data.length)
      match sliced.data with
      | c :: rest => if c = '/' || c = '\\' then String.mk ('/' :: rest) else sliced
      | [] => sliced
    else basename

/-- The diagnostic message for an invalid name at a usage site. -/
def invalidUsageMessage (handleName : String) : String :=
  "Invalid handle name: \x27" ++ handleName ++
    "\x27. Handles must start with a letter/underscore and contain only alphanumeric chars, dots, underscores, hyphen, %, ^, +, and must end with an alphanumeric char."

/-- `createDiagnosticForUsage` of `LinkProvider.ts`. -/
def createDiagnosticForUsage (cfg : HostConfig) (link : DocumentLink)
    (handleName : String) (validDefinitions : List HandleDefinition) :
    Option Diagnostic :=
  if validDefinitions.length = 1 then none
  else if validDefinitions.length = 0 then
    some (errorDiagnostic link.range ("Handle \x27" ++ handleName ++ "\x27 not found"))
  else
    let locationInfo := String.intercalate "\n " (validDefinitions.map (fun d =>
      getRelativeWorkspacePath cfg d.fsPath ++ ":" ++ toString (d.range.startLine + 1)))
    some (errorDiagnostic link.range
      ("Handle \x27" ++ handleName ++ "\x27 has multiple definitions (" ++
        toString validDefinitions.length ++ " found): \n " ++ locationInfo))

/-- The per-link body of `validateHandleUsage`'s loop: returns the link
with its `validated` field updated together with the diagnostics pushed
for it. -/
def validateUsageLink (definitions : List (String × List HandleDefinition))
    (parents : List String) (cfg : HostConfig) (link : DocumentLink) :
    DocumentLink × List Diagnostic :=
  let handleName := link.data.handleName
  let currentFsPath := link.data.fsPath
  if handleName = "" || currentFsPath = "" then (link, [])
  else if !(usageStrictTest handleName) then
    ({ link with data := { link.data with validated := ValidationState.error } },
      [errorDiagnostic link.range (invalidUsageMessage handleName)])
  else
    let validDefinitions := findValidDefinitions definitions parents handleName currentFsPath
    if validDefinitions.length = 1 then
      ({ link with data := { link.data with validated := ValidationState.ok } }, [])
    else
      let link2 := { link with data := { link.data with validated := ValidationState.error } }
      match createDiagnosticForUsage cfg link2 handleName validDefinitions with
      | some diagnostic => (link2, [diagnostic])
      | none => (link2, [])

/-- `validateHandleUsage` of `LinkProvider.ts`: validates every link in
order, mutating its `validated` state and accumulating diagnostics. -/
def validateHandleUsage (definitions : List (String × List HandleDefinition))
    (parents : List String) (cfg : HostConfig) (documentLinks : List DocumentLink) :
    List DocumentLink × List Diagnostic :=
  let results := documentLinks.map (validateUsageLink definitions parents cfg)
  (results.map (fun r => r.1), (results.map (fun r => r.2)).flatten)

/-- The diagnostic message for an invalid name at a definition site (it
differs from the usage-site wording in its last clause). -/
def invalidDefinitionMessage (handleName : String) : String :=
  "Invalid handle name: \x27" ++ handleName ++
    "\x27. Handles must start with a letter/underscore and contain only alphanumeric chars, dots, underscores, hyphen, %, ^, or +."

/-- The body of `validateHandleDefinitions`' `forEach`: the diagnostics
pushed while visiting one `definitions` entry. -/
def validateDefEntry (definitions : List (String × List HandleDefinition))
    (parents : List String) (usageCounts : List (String × Int)) (cfg : HostConfig)
    (currentFsPath : String) (entry : String × List HandleDefinition) :
    List Diagnostic :=
  let handleName := entry.1
  match entry.2.find? (fun d => d.fsPath = currentFsPath) with
  | none => []
  | some localDef =>
    if !(strictFullMatch handleName) then
      [errorDiagnostic localDef.range (invalidDefinitionMessage handleName)]
    else if 1 < (findValidDefinitions definitions parents handleName currentFsPath).length then
      [errorDiagnostic localDef.range
        ("Handle \x27" ++ handleName ++ "\x27 is defined multiple times in this document tree.")]
    else if isUnusedWarningEnabled cfg && (mget usageCounts handleName).getD 0 = 0 then
      [{ range := localDef.range,
         message := "Unused handle: \x27" ++ handleName ++ "\x27 is defined but never used.",
         severity := Severity.warning }]
    else []

/-- `validateHandleDefinitions` of `LinkProvider.ts`: one pass over the
whole `definitions` map in insertion order. -/
def validateHandleDefinitions (definitions : List (String × List HandleDefinition))
    (parents : List String) (usageCounts : List (String × Int)) (cfg : HostConfig)
    (currentFsPath : String) : List Diagnostic :=
  (definitions.map (validateDefEntry definitions parents usageCounts cfg currentFsPath)).flatten

/-! ## Extraction and (re)indexing (`src/LinkProvider.ts`) -/

/-- `updateUsageCount` of `LinkProvider.ts`: counts that would reach zero
or below are deleted instead of stored. -/
def updateUsageCount (usageCounts : List (String × Int)) (handleName : String)
    (delta : Int) : List (String × Int) :=
  let current := (mget usageCounts handleName).getD 0
  let next := current + delta
  if next ≤ 0 then mdelete usageCounts handleName
  else mset usageCounts handleName next

/-- `clearDocumentDefinitions` of `LinkProvider.ts`: drop this path's
definitions from every entry, deleting entries that become empty. -/
def clearDocumentDefinitions :
    List (String × List HandleDefinition) → String → List (String × List HandleDefinition)
  | [], _ => []
  | entry :: rest, fsPath =>
    let filteredDefinitions := entry.2.filter (fun d => d.fsPath ≠ fsPath)
    if filteredDefinitions.isEmpty then clearDocumentDefinitions rest fsPath
    else (entry.1, filteredDefinitions) :: clearDocumentDefinitions rest fsPath

/-- `extractHandleDefinition` of `LinkProvider.ts`: a loose
`handle=<name>` match is always recorded, even for invalid names. -/
def extractHandleDefinition (content : String) (lineNumber indent : Nat)
    (fsPath : String) (definitions : List (String × List HandleDefinition)) :
    List (String × List HandleDefinition) :=
  match looseDefMatch content with
  | none => definitions
  | some (fullMatchText, handleName) =>
    let handleStart := (jsIndexOf content fullMatchText).getD 0
    let nameOffset := (jsIndexOf fullMatchText handleName).getD 0
    let range := lineRange lineNumber (indent + handleStart + nameOffset)
      (indent + handleStart + nameOffset + handleName.length)
    let definition : HandleDefinition := { fsPath := fsPath, range := range }
    mset definitions handleName ((mget definitions handleName).getD [] ++ [definition])

/-- `extractHandleUsage` of `LinkProvider.ts`: every loose `>>name`
occurrence becomes a link whose `validated` state starts `unknown`. -/
def extractHandleUsage (content : String) (lineNumber indent : Nat)
    (fsPath : String) : List DocumentLink :=
  (scanUsages content.data 0).map (fun m =>
    { range := lineRange lineNumber (indent + m.1) (indent + m.1 + (2 + m.2.length)),
      data := { handleName := m.2, fsPath := fsPath, validated := ValidationState.unknown } })

/-- `shouldProcessUsageInLine` of `LinkProvider.ts`. -/
def shouldProcessUsageInLine (lineType : LineType) : Bool :=
  lineType ≠ LineType.CodeBlockLine && lineType ≠ LineType.Tag &&
    lineType ≠ LineType.CodeBlockClosing

/-- The per-line callback body of `extractHandlesFromDocument`: validate
the line, record a definition on an `Attribute` line, and collect usage
links on the permitted line types. -/
def extractStep (fsPath : String)
    (acc : List (String × List HandleDefinition) × List DocumentLink × List Diagnostic)
    (step : Step) :
    List (String × List HandleDefinition) × List DocumentLink × List Diagnostic :=
  let diagnostics := acc.2.2 ++
    validateLine step.stateBeforeLine step.lineType step.stateAfterLine
      step.lineNumber step.indent step.content
  let defs :=
    if step.lineType = LineType.Attribute then
      extractHandleDefinition step.content step.lineNumber step.indent fsPath acc.1
    else acc.1
  let links :=
    if shouldProcessUsageInLine step.lineType then
      acc.2.1 ++ extractHandleUsage step.content step.lineNumber step.indent fsPath
    else acc.2.1
  (defs, links, diagnostics)

/-- `extractHandlesFromDocument` of `LinkProvider.ts`: one walk over the
document, validating each line, recording definitions from `Attribute`
lines and usages from the permitted line types, then checking the final
state for an unterminated code block. -/
def extractHandlesFromDocument (definitions : List (String × List HandleDefinition))
    (document : WlyDocument) :
    List (String × List HandleDefinition) × List DocumentLink × List Diagnostic :=
  let folded := (walk document).1.foldl (extractStep document.fsPath) (definitions, [], [])
  (folded.1, folded.2.1, folded.2.2 ++ validateFinalState document (walk document).2)

/-- `processDocument` of `LinkProvider.ts`: subtract the old links'
usage counts, purge the path's definitions, re-extract, add the new
counts, validate (when initialized), and store the new links.  Returns
the new state together with the document's links and diagnostics. -/
def processDocument (cfg : HostConfig) (s : IndexState) (document : WlyDocument) :
    IndexState × List DocumentLink × List Diagnostic :=
  let currentFsPath := document.fsPath
  let oldLinks := (mget s.documentLinks currentFsPath).getD []
  let usageCounts1 := oldLinks.foldl
    (fun u link => updateUsageCount u link.data.handleName (-1)) s.usageCounts
  let definitions1 := clearDocumentDefinitions s.definitions currentFsPath
  let extracted :=
    extractHandlesFromDocument definitions1 { fsPath := currentFsPath, lines := document.lines }
  let definitions2 := extracted.1
  let documentLinks := extracted.2.1
  let diagnostics0 := extracted.2.2
  let usageCounts2 := documentLinks.foldl
    (fun u link => updateUsageCount u link.data.handleName 1) usageCounts1
  let validated :=
    if s.isInitialized then
      let usageRun := validateHandleUsage definitions2 s.parents cfg documentLinks
      (usageRun.1, (diagnostics0 ++ usageRun.2) ++
        validateHandleDefinitions definitions2 s.parents usageCounts2 cfg currentFsPath)
    else (documentLinks, diagnostics0)
  ({ s with definitions := definitions2,
            usageCounts := usageCounts2,
            documentLinks := mset s.documentLinks currentFsPath validated.1 },
    validated.1, validated.2)

/-- `getParentDirFromFilePath` of `LinkProvider.ts`:
`filePath.replace(new RegExp("__parent.wly$"), "")` — note the `.` in the
pattern matches any character. -/
def getParentDirFromFilePath (filePath : String) : String :=
  let cs := filePath.data
  if 12 ≤ cs.length &&
      charsStartWith (cs.drop (cs.length - 12)) "__parent".data &&
      charsStartWith (cs.drop (cs.length - 3)) "wly".data then
    String.mk (cs.take (cs.length - 12))
  else filePath

/-- `deleteUri` of `LinkProvider.ts`: subtract the document's cached
usages, drop a parent directory if the file was a parent marker, purge
its definitions, and forget its links. -/
def deleteUri (s : IndexState) (targetPath : String) : IndexState :=
  let usageCounts1 :=
    match mget s.documentLinks targetPath with
    | some cachedLinks =>
      cachedLinks.foldl (fun u link => updateUsageCount u link.data.handleName (-1))
        s.usageCounts
    | none => s.usageCounts
  let parents1 :=
    if jsEndsWith targetPath PARENT_SUFFIX then
      s.parents.filter (fun dir => dir ≠ getParentDirFromFilePath targetPath)
    else s.parents
  let definitions1 := s.definitions.filterMap (fun entry =>
    let filteredDefinitions := entry.2.filter (fun d => d.fsPath ≠ targetPath)
    if filteredDefinitions.isEmpty then none else some (entry.1, filteredDefinitions))
  { s with usageCounts := usageCounts1,
           parents := parents1,
           definitions := definitions1,
           documentLinks := mdelete s.documentLinks targetPath }

/-! ## Activation-time workspace scan (`initializeAsync` and helpers) -/

/-- `parentPath` of `LinkProvider.ts`: strip the 12-character parent
suffix (the non-parent branch logs and returns the path unchanged). -/
def parentPath (path : String) : String :=
  if jsEndsWith path PARENT_SUFFIX then
    String.mk (path.data.take (path.data.length - PARENT_SUFFIX_LENGTH))
  else path

/-- `vscode.workspace.findFiles(pattern, null, MAX_FILES)` modelled on a
workspace file listing: the matches of the glob, truncated to at most
`MAX_FILES` results per the host API's `maxResults` contract. -/
def findFilesCapped (wsFiles : List String) (suffix : String) : List String :=
  (wsFiles.filter (fun p => jsEndsWith p suffix)).take MAX_FILES

/-- `discoverParentDirectories` of `LinkProvider.ts`. -/
def discoverParentDirectories (wsFiles : List String) : List String :=
  (findFilesCapped wsFiles PARENT_SUFFIX).map parentPath

/-- `processAllDocuments` of `LinkProvider.ts`: process every found
`.wly` file (a file that fails to open is logged and skipped by
`processUri`'s catch). -/
def processAllDocuments (cfg : HostConfig) (openDoc : String → Option (List String))
    (wsFiles : List String) (s : IndexState) : IndexState :=
  (findFilesCapped wsFiles FILE_EXTENSION).foldl (fun st p =>
    match openDoc p with
    | some lines => (processDocument cfg st { fsPath := p, lines := lines }).1
    | none => st) s

/-- `initializeAsync` starting from a fresh provider: discover parent
directories, process all documents, then mark the provider
initialized. -/
def initialScan (cfg : HostConfig) (openDoc : String → Option (List String))
    (wsFiles : List String) : IndexState :=
  let s0 : IndexState :=
    { definitions := [], parents := discoverParentDirectories wsFiles,
      documentLinks := [], usageCounts := [], isInitialized := false }
  let s1 := processAllDocuments cfg openDoc wsFiles s0
  { s1 with isInitialized := true }

/-! ## Rename (`prepareRename`, `provideRenameEdits`, `DEF_REGEX`) -/

/-- Full match of the two-or-more-character alternative `[S][B]*[E]`. -/
def sbeForm : List Char → Bool
  | [] => false
  | [_] => false
  | c :: cs => isHandleStartChar c && handleBodyEnd cs

/-- The candidate capture lengths for `(([S][B]*[E])|[S])` starting at
the head of the list, in the backtracking engine's preference order:
the first alternative with its greedy body (longest first), then the
single-character alternative. -/
def strictCandidates (cs : List Char) : List Nat :=
  ((List.range (cs.length + 1)).reverse.filter (fun n => sbeForm (cs.take n))) ++
    (match cs with
      | c :: _ => if isHandleStartChar c then [1] else []
      | [] => [])

/-- The trailing group `(:|\s|$)` of `DEF_REGEX`: how many characters it
consumes, or `none` if it cannot match here. -/
def followerLen : List Char → Option Nat
  | [] => some 0
  | c :: _ => if c = ':' then some 1 else if isJsWhitespace c then some 1 else none

/-- Match of `DEF_REGEX`
(`^\s*handle=\s*(([S][B]*[E])|[S])(:|\s|$)`) against a line, returning
the whole match text and the captured name. -/
def defRegexMatch (content : String) : Option (String × String) :=
  let cs := content.data
  let ws1 := cs.takeWhile isJsWhitespace
  let rest1 := cs.drop ws1.length
  if charsStartWith rest1 "handle=".data then
    let rest2 := rest1.drop 7
    let ws2 := rest2.takeWhile isJsWhitespace
    let rest3 := rest2.drop ws2.length
    match (strictCandidates rest3).findSome? (fun n =>
        (followerLen (rest3.drop n)).map (fun k => (n, k))) with
    | some (n, k) =>
      some (String.mk (ws1 ++ "handle=".data ++ ws2 ++ rest3.take (n + k)),
        String.mk (rest3.take n))
    | none => none
  else none

/-- `getDefinitionOnLine` of `LinkProvider.ts`: match `DEF_REGEX` on the
cursor's line and compute the range of the name (located by `indexOf`
within the match text). -/
def getDefinitionOnLine (document : WlyDocument) (posLine : Nat) :
    Option (String × Range) :=
  let lineText := (document.lines.get? posLine).getD ""
  match defRegexMatch lineText with
  | none => none
  | some (fullMatchText, handleName) =>
    let matchStart := 0
    let nameOffsetInMatch := (jsIndexOf fullMatchText handleName).getD 0
    let absoluteNameStart := matchStart + nameOffsetInMatch
    some (handleName,
      lineRange posLine absoluteNameStart (absoluteNameStart + handleName.length))

/-- `vscode.Range.contains(position)`: inclusive on both ends. -/
def rangeContainsPos (r : Range) (line char : Nat) : Bool :=
  (decide (r.startLine < line) || (r.startLine = line && r.startCol ≤ char)) &&
    (decide (line < r.endLine) || (line = r.endLine && char ≤ r.endCol))

/-- `prepareRename` of `LinkProvider.ts`: succeeds only at a definition
site containing the cursor; `none` models the thrown
"Renaming is only allowed at the definition site" error. -/
def prepareRename (document : WlyDocument) (posLine posChar : Nat) :
    Option (Range × String) :=
  match getDefinitionOnLine document posLine with
  | some result =>
    if rangeContainsPos result.2 posLine posChar then some (result.2, result.1)
    else none
  | none => none

/-- An atom of the regex `new RegExp("^" + oldName + "$")` built by
`provideRenameEdits`: within a handle name the characters `.`, `+` and
`^` are regex metacharacters and every other handle character is a
literal. -/
inductive RenameAtom where
  | lit (c : Char)
  | anyChar
  | caret
  deriving DecidableEq, Repr

/-- Compile `oldName` as the JavaScript regex body it is spliced in as:
`.` becomes any-character, `^` a start assertion, `+` a one-or-more
quantifier on the preceding atom.  `none` models a `SyntaxError` from
`new RegExp` (e.g. `++`, or `+` with nothing to repeat). -/
def parseRenamePattern (oldName : String) : Option (List (RenameAtom × Bool)) :=
  go oldName.data []
where
  go : List Char → List (RenameAtom × Bool) → Option (List (RenameAtom × Bool))
    | [], acc => some acc.reverse
    | c :: cs, acc =>
      if c = '+' then
        match acc with
        | [] => none
        | (atom, quantified) :: rest =>
          if quantified then none
          else match atom with
            | RenameAtom.caret => none
            | _ => go cs ((atom, true) :: rest)
      else if c = '.' then go cs ((RenameAtom.anyChar, false) :: acc)
      else if c = '^' then go cs ((RenameAtom.caret, false) :: acc)
      else if isHandleStartChar c || isHandleBodyChar c then
        go cs ((RenameAtom.lit c, false) :: acc)
      else none

/-- Does an atom match one character? -/
def atomMatches : RenameAtom → Char → Bool
  | RenameAtom.lit c, d => c = d
  | RenameAtom.anyChar, _ => true
  | RenameAtom.caret, _ => false

/-- Backtracking matcher for the compiled pattern against the whole
candidate (the pattern is anchored `^ … $`, so a match must consume the
entire string and `^` assertions hold only at position 0).  Fuel bounds
the pattern-length plus text-length measure. -/
def matchPiecesGo : Nat → List (RenameAtom × Bool) → Nat → List Char → Bool
  | 0, _, _, _ => false
  | Nat.succ fuel, pieces, pos, rest =>
    match pieces with
    | [] => rest.isEmpty
    | (RenameAtom.caret, _) :: ps => pos = 0 && matchPiecesGo fuel ps pos rest
    | (atom, false) :: ps =>
      match rest with
      | [] => false
      | d :: ds => atomMatches atom d && matchPiecesGo fuel ps (pos + 1) ds
    | (atom, true) :: ps =>
      match rest with
      | [] => false
      | d :: ds => atomMatches atom d &&
          (matchPiecesGo fuel ps (pos + 1) ds ||
            matchPiecesGo fuel ((atom, true) :: ps) (pos + 1) ds)

/-- `exactMatchRegex.test(candidate)` for the compiled `^oldName$`. -/
def renameRegexTest (pieces : List (RenameAtom × Bool)) (candidate : String) : Bool :=
  matchPiecesGo (pieces.length + candidate.data.length + 1) pieces 0 candidate.data

/-- One text replacement of the produced `WorkspaceEdit`. -/
structure RenameEdit where
  fsPath : String
  range : Range
  newText : String
  deriving DecidableEq, Repr

/-- `provideRenameEdits` of `LinkProvider.ts`: for every document in the
same tree, rewrite the call sites whose cached handle name passes the
`^oldName$` regex test (skipping the two-character `>>` marker) and the
definition sites stored under the key `oldName`.  `none` models both the
no-definition `undefined` return and a `new RegExp` throw. -/
def provideRenameEdits (s : IndexState) (document : WlyDocument)
    (posLine : Nat) (newName : String) : Option (List RenameEdit) :=
  match getDefinitionOnLine document posLine with
  | none => none
  | some defInfo =>
    let oldName := defInfo.1
    let originFsPath := document.fsPath
    match parseRenamePattern oldName with
    | none => none
    | some exactMatchPieces =>
      some ((s.documentLinks.map (fun entry =>
        let fsPath := entry.1
        if !(isInSameDocumentTree s.parents originFsPath fsPath) then []
        else
          (entry.2.filterMap (fun link =>
            if link.data.handleName ≠ "" &&
                renameRegexTest exactMatchPieces link.data.handleName then
              some { fsPath := fsPath,
                     range := { startLine := link.range.startLine,
                                startCol := link.range.startCol + 2,
                                endLine := link.range.endLine,
                                endCol := link.range.endCol },
                     newText := newName }
            else none)) ++
          (((mget s.definitions oldName).getD []).filterMap (fun d =>
            if d.fsPath = fsPath then
              some { fsPath := fsPath, range := d.range, newText := newName }
            else none)))).flatten)

/-! ## Spec-side document-tree containment (for claim C4)

Modelled from the spec: §3's "Document Tree" prescribes separator-aware
path-prefix containment ("prefix must be followed by a path separator or
be an exact match — not a naive string-prefix test").  These definitions
follow the spec's words, to be compared with `isPathUnderParent` and
`isInSameDocumentTree` above. -/

/-- Separator-aware containment as the spec words it. -/
def claimPathUnderParent (filePath parentDir : String) : Bool :=
  filePath = parentDir ||
    jsStartsWith filePath (parentDir ++ "/") ||
    jsStartsWith filePath (parentDir ++ "\\")

/-- The spec's same-tree relation: same path, or both under some
recorded parent directory, with separator-aware containment. -/
def claimSameDocumentTree (parents : List String) (p q : String) : Bool :=
  p = q || parents.any (fun dir => claimPathUnderParent p dir && claimPathUnderParent q dir)

/-! ## Verification-support definitions -/

/-- The reachability invariant carried through the walk: the band is
ordered, the minimum is 0 outside code blocks, the maximum is
`Number.MAX_VALUE` inside them, and the band's finite side is bounded by
`b` (the bound grows by 4 per processed line, via the tag rule). -/
def WB (s : State) (b : Nat) : Prop :=
  s.minIndent ≤ s.maxIndent ∧
  (s.zone ≠ Zone.CodeBlock → s.minIndent = 0) ∧
  (s.zone = Zone.CodeBlock → s.maxIndent = NUMBER_MAX_VALUE) ∧
  (s.zone = Zone.CodeBlock → s.minIndent ≤ b) ∧
  (s.zone ≠ Zone.CodeBlock → s.maxIndent ≤ b)

/-- A code-block state as produced by opening a fence at indent 0 from
the initial state. -/
def cbFixtureState : State :=
  { zone := Zone.CodeBlock, maxIndent := NUMBER_MAX_VALUE, minIndent := 0,
    codeBlockStartIndent := 0, codeBlockStartLineNumber := 0 }

/-- Well-formedness of the usage-count map: every stored count is
strictly positive (what the claim asserts is maintained). -/
def WFCounts (usageCounts : List (String × Int)) : Prop :=
  ∀ e ∈ usageCounts, 0 < e.2

/-- The per-name effect of one `updateUsageCount` call on the count of
the touched name. -/
def applyDelta (v : Option Int) (delta : Int) : Option Int :=
  if v.getD 0 + delta ≤ 0 then none else some (v.getD 0 + delta)

/-- `applyDelta` iterated. -/
def applyDeltaIter : Nat → Option Int → Int → Option Int
  | 0, v, _ => v
  | Nat.succ k, v, delta => applyDeltaIter k (applyDelta v delta) delta

/-- What one walked line contributes to the definitions map: the
name/`HandleDefinition` pair pushed by `extractHandleDefinition` on an
`Attribute` line, independent of the map it is pushed into. -/
def stepDef (fsPath : String) (step : Step) : Option (String × HandleDefinition) :=
  if step.lineType = LineType.Attribute then
    (looseDefMatch step.content).map (fun m =>
      let handleStart := (jsIndexOf step.content m.1).getD 0
      let nameOffset := (jsIndexOf m.1 m.2).getD 0
      (m.2, { fsPath := fsPath,
              range := lineRange step.lineNumber (step.indent + handleStart + nameOffset)
                (step.indent + handleStart + nameOffset + m.2.length) }))
  else none

/-- The definition records a walk of the document extracts, in order. -/
def docDefs (document : WlyDocument) : List (String × HandleDefinition) :=
  (walk document).1.filterMap (stepDef document.fsPath)

/-- What one walked line contributes to the usage links. -/
def stepLinks (fsPath : String) (step : Step) : List DocumentLink :=
  if shouldProcessUsageInLine step.lineType then
    extractHandleUsage step.content step.lineNumber step.indent fsPath
  else []

/-- The usage links a walk of the document extracts, in order. -/
def docLinks (document : WlyDocument) : List DocumentLink :=
  ((walk document).1.map (stepLinks document.fsPath)).flatten

/-- The definitions recorded under a given name by a batch of extracted
entries. -/
def defsOf (n : String) (entries : List (String × HandleDefinition)) :
    List HandleDefinition :=
  (entries.filter (fun e => e.1 = n)).map (fun e => e.2)

/-- An optional count that is positive when present. -/
def PosOpt (v : Option Int) : Prop :=
  ∀ c : Int, v = some c → 0 < c

/-- Pushing a batch of extracted definitions into the definitions map,
in order. -/
def pushAllDefs :
    List (String × List HandleDefinition) → List (String × HandleDefinition) →
      List (String × List HandleDefinition)
  | m, [] => m
  | m, e :: es => pushAllDefs (mset m e.1 ((mget m e.1).getD [] ++ [e.2])) es

/-! ## Concrete fixtures used by the claim theorems -/

/-- A host with no workspace folder and the unused-handle setting left at
its default. -/
def cfgNone : HostConfig := { workspaceRoot := none, enableUnusedHandleWarnings := none }

/-- A fresh, initialized provider with no indexed documents. -/
def emptyInitializedState : IndexState :=
  { definitions := [], parents := [], documentLinks := [], usageCounts := [],
    isInitialized := true }

/-- The spec's concrete three-line scenario document. -/
def docScenario : WlyDocument :=
  { fsPath := "/t/a.wly",
    lines := ["|> section", "    handle=intro", "Welcome >>intro."] }

/-- The scenario document with the sentence-ending period removed from
line 2. -/
def docScenarioNoPeriod : WlyDocument :=
  { fsPath := "/t/a.wly",
    lines := ["|> section", "    handle=intro", "Welcome >>intro"] }

/-- The `handle=intro` definition recorded from line 1 of the scenario
document. -/
def introDefinition : HandleDefinition :=
  { fsPath := "/t/a.wly", range := lineRange 1 11 16 }

/-- A document whose only line carries the reference `>>ab!` (captured
loosely as the name `ab!`). -/
def docBang : WlyDocument := { fsPath := "/t/a.wly", lines := ["see >>ab! here"] }

/-- A document opening a code block and indenting its body by 2. -/
def docCodeBlock : WlyDocument := { fsPath := "/t/c.wly", lines := ["```", "  x"] }

/-- A document that defines the handle `foo` on lines 1 and 3. -/
def duplicateDefsDoc : WlyDocument :=
  { fsPath := "/t/a.wly",
    lines := ["|> a", "    handle=foo", "|> b", "    handle=foo"] }

/-- The first `handle=foo` definition of `duplicateDefsDoc` (line 1). -/
def defFooA : HandleDefinition := { fsPath := "/t/a.wly", range := lineRange 1 11 14 }

/-- The second `handle=foo` definition of `duplicateDefsDoc` (line 3). -/
def defFooB : HandleDefinition := { fsPath := "/t/a.wly", range := lineRange 3 11 14 }

/-- A definitions map holding both `foo` definitions. -/
def defsFooDup : List (String × List HandleDefinition) := [("foo", [defFooA, defFooB])]

/-- A one-file workspace for the activation-scan witness. -/
def wsFixture : List String := ["/w/a.wly"]

/-- The host document opener for `wsFixture`. -/
def openDocFixture : String → Option (List String) :=
  fun p => if p = "/w/a.wly" then some ["|> s", "    handle=x", "see >>x"] else none

/-- A document defining `a.b` and referencing the different handle
`axb`. -/
def docRename : WlyDocument := { fsPath := "/t/f.wly", lines := ["handle=a.b", "see >>axb"] }

/-- An index that has processed `docRename`: one definition of `a.b` and
one cached reference to `axb`, both in the same file. -/
def renameState : IndexState :=
  { definitions := [("a.b", [{ fsPath := "/t/f.wly", range := lineRange 0 7 10 }])],
    parents := [],
    documentLinks := [("/t/f.wly",
      [{ range := lineRange 1 4 9,
         data := { handleName := "axb", fsPath := "/t/f.wly",
                   validated := ValidationState.error } }])],
    usageCounts := [],
    isInitialized := true }

end Writerly

namespace Writerly

/-! ## Association-list map lemmas -/

theorem mem_mset {β : Type} {m : List (String × β)} {k : String} {v : β} {e : String × β}
    (h : e ∈ mset m k v) : e = (k, v) ∨ e ∈ m := by
  induction m with
  | nil => simpa [mset] using h
  | cons f fs ih =>
    simp only [mset] at h
    split at h
    · rcases List.mem_cons.1 h with h | h
      · exact Or.inl h
      · exact Or.inr (List.mem_cons_of_mem _ h)
    · rcases List.mem_cons.1 h with h | h
      · exact Or.inr (h ▸ List.mem_cons_self _ _)
      · rcases ih h with h | h
        · exact Or.inl h
        · exact Or.inr (List.mem_cons_of_mem _ h)

theorem mget_mset_self {β : Type} (m : List (String × β)) (k : String) (v : β) :
    mget (mset m k v) k = some v := by
  induction m with
  | nil => simp [mget, mset]
  | cons f fs ih =>
    by_cases h : f.1 = k
    · simp [mget, mset, h]
    · simp [mget, mset, h, ih]

theorem mget_mset_ne {β : Type} (m : List (String × β)) (k : String) (v : β)
    (n : String) (h : ¬ n = k) : mget (mset m k v) n = mget m n := by
  have hkn : ¬ k = n := fun hh => h hh.symm
  induction m with
  | nil => simp [mget, mset, hkn]
  | cons f fs ih =>
    by_cases hf : f.1 = k
    · have hn : ¬ f.1 = n := by rw [hf]; exact hkn
      simp only [mset, if_pos hf, mget]
      rw [if_neg hkn, if_neg hn]
    · by_cases hn : f.1 = n
      · simp only [mset, if_neg hf, mget, if_pos hn]
      · simp only [mset, if_neg hf, mget, if_neg hn]
        exact ih

theorem mget_mdelete_self {β : Type} (m : List (String × β)) (k : String) :
    mget (mdelete m k) k = none := by
  induction m with
  | nil => simp [mget, mdelete]
  | cons f fs ih =>
    by_cases h : f.1 = k
    · simpa [mget, mdelete, h] using ih
    · simpa [mget, mdelete, h] using ih

theorem mget_mdelete_ne {β : Type} (m : List (String × β)) (k : String)
    (n : String) (h : ¬ n = k) : mget (mdelete m k) n = mget m n := by
  induction m with
  | nil => simp [mget, mdelete]
  | cons f fs ih =>
    by_cases hf : f.1 = k
    · have hn : ¬ f.1 = n := by rw [hf]; exact fun hh => h hh.symm
      simp only [mdelete, List.filter_cons] at ih ⊢
      rw [if_neg (by simp [hf])]
      rw [show mget (f :: fs) n = mget fs n from by simp [mget, hn]]
      exact ih
    · by_cases hn : f.1 = n
      · simp only [mdelete, List.filter_cons] at ih ⊢
        rw [if_pos (by simp [hf])]
        simp [mget, hn]
      · simp only [mdelete, List.filter_cons] at ih ⊢
        rw [if_pos (by simp [hf])]
        simp only [mget, if_neg hn]
        exact ih

theorem mget_mem {β : Type} {m : List (String × β)} {n : String} {v : β}
    (h : mget m n = some v) : (n, v) ∈ m := by
  induction m with
  | nil => simp [mget] at h
  | cons f fs ih =>
    by_cases hf : f.1 = n
    · rw [mget, if_pos hf] at h
      have : f = (n, v) := Prod.ext hf (Option.some_injective _ h)
      exact this ▸ List.mem_cons_self _ _
    · rw [mget, if_neg hf] at h
      exact List.mem_cons_of_mem _ (ih h)

theorem mget_updateUsageCount (u : List (String × Int)) (k : String) (delta : Int)
    (n : String) :
    mget (updateUsageCount u k delta) n =
      if n = k then applyDelta (mget u k) delta else mget u n := by
  unfold updateUsageCount applyDelta
  dsimp only
  by_cases hle : (mget u k).getD 0 + delta ≤ 0
  · rw [if_pos hle]
    by_cases hn : n = k
    · subst hn
      rw [mget_mdelete_self, if_pos rfl, if_pos hle]
    · rw [mget_mdelete_ne u k n hn, if_neg hn]
  · rw [if_neg hle]
    by_cases hn : n = k
    · subst hn
      rw [mget_mset_self, if_pos rfl, if_neg hle]
    · rw [mget_mset_ne u k _ n hn, if_neg hn]

/-! ## Usage-count well-formedness helpers -/

theorem wf_updateUsageCount (u : List (String × Int)) (k : String) (delta : Int)
    (h : WFCounts u) : WFCounts (updateUsageCount u k delta) := by
  unfold updateUsageCount
  dsimp only
  by_cases hle : (mget u k).getD 0 + delta ≤ 0
  · rw [if_pos hle]
    exact fun e he => h e (List.mem_of_mem_filter he)
  · rw [if_neg hle]
    intro e he
    rcases mem_mset he with rfl | he
    · dsimp only
      omega
    · exact h e he

theorem wf_foldl_links (L : List DocumentLink) (delta : Int) :
    ∀ u, WFCounts u →
      WFCounts (L.foldl (fun u link => updateUsageCount u link.data.handleName delta) u) := by
  induction L with
  | nil => exact fun u h => h
  | cons l ls ih =>
    intro u h
    simpa using ih _ (wf_updateUsageCount u l.data.handleName delta h)

theorem wf_processDocument (cfg : HostConfig) (s : IndexState) (document : WlyDocument)
    (h : WFCounts s.usageCounts) :
    WFCounts (processDocument cfg s document).1.usageCounts := by
  unfold processDocument
  dsimp only
  exact wf_foldl_links _ _ _ (wf_foldl_links _ _ _ h)

theorem wf_deleteUri (s : IndexState) (targetPath : String)
    (h : WFCounts s.usageCounts) : WFCounts (deleteUri s targetPath).usageCounts := by
  unfold deleteUri
  dsimp only
  cases hm : mget s.documentLinks targetPath with
  | some links => exact wf_foldl_links _ _ _ h
  | none => exact h

theorem wf_processAllDocuments (cfg : HostConfig)
    (openDoc : String → Option (List String)) (files : List String) :
    ∀ (s : IndexState), WFCounts s.usageCounts →
      WFCounts ((files.foldl (fun st p =>
        match openDoc p with
        | some lines => (processDocument cfg st { fsPath := p, lines := lines }).1
        | none => st) s).usageCounts) := by
  induction files with
  | nil => exact fun s h => h
  | cons p ps ih =>
    intro s h
    simp only [List.foldl_cons]
    cases hv : openDoc p with
    | some lines => exact ih _ (wf_processDocument cfg s { fsPath := p, lines := lines } h)
    | none => exact ih _ h

/-! ## Re-indexing idempotence helpers: the definitions map -/

theorem mem_keys_mset {β : Type} {m : List (String × β)} {k : String} {v : β}
    {n : String} (h : n ∈ (mset m k v).map (fun e => e.1)) :
    n ∈ m.map (fun e => e.1) ∨ n = k := by
  rcases List.mem_map.1 h with ⟨e, he, rfl⟩
  rcases mem_mset he with rfl | he
  · exact Or.inr rfl
  · exact Or.inl (List.mem_map_of_mem _ he)

theorem keysNodup_mset {β : Type} {m : List (String × β)} (k : String) (v : β)
    (h : keysNodup m) : keysNodup (mset m k v) := by
  induction m with
  | nil => simp [keysNodup, mset]
  | cons f fs ih =>
    unfold keysNodup at h ⊢
    rw [List.map_cons, List.nodup_cons] at h
    by_cases hf : f.1 = k
    · simp only [mset, if_pos hf, List.map_cons, List.nodup_cons]
      exact ⟨by rw [← hf]; exact h.1, h.2⟩
    · simp only [mset, if_neg hf, List.map_cons, List.nodup_cons]
      refine ⟨fun hmem => ?_, ih h.2⟩
      rcases mem_keys_mset hmem with hmem | hmem
      · exact h.1 hmem
      · exact hf hmem
  -- `keysNodup (mset fs k v)` comes from `ih h.2`; membership via `mem_keys_mset`

theorem mget_none_of_not_mem_keys {β : Type} {m : List (String × β)} {n : String}
    (h : n ∉ m.map (fun e => e.1)) : mget m n = none := by
  induction m with
  | nil => rfl
  | cons f fs ih =>
    rw [List.map_cons] at h
    have hf : ¬ f.1 = n := by
      intro hf
      rw [hf] at h
      exact h (List.mem_cons_self _ _)
    rw [mget, if_neg hf]
    exact ih (fun hmem => h (List.mem_cons_of_mem _ hmem))

theorem keys_clear_sublist (m : List (String × List HandleDefinition)) (path : String) :
    ((clearDocumentDefinitions m path).map (fun e => e.1)).Sublist
      (m.map (fun e => e.1)) := by
  induction m with
  | nil => simp [clearDocumentDefinitions]
  | cons f fs ih =>
    unfold clearDocumentDefinitions
    dsimp only
    by_cases hemp : (f.2.filter (fun d => d.fsPath ≠ path)).isEmpty
    · rw [if_pos hemp]
      exact ih.trans (List.sublist_cons_self _ _)
    · rw [if_neg hemp]
      rw [List.map_cons, List.map_cons]
      exact List.Sublist.cons₂ _ ih

theorem keysNodup_clear (m : List (String × List HandleDefinition)) (path : String)
    (h : keysNodup m) : keysNodup (clearDocumentDefinitions m path) :=
  List.Nodup.sublist (keys_clear_sublist m path) h

theorem clear_cons (f : String × List HandleDefinition)
    (fs : List (String × List HandleDefinition)) (path : String) :
    clearDocumentDefinitions (f :: fs) path =
      (if (f.2.filter (fun d => d.fsPath ≠ path)).isEmpty then
        clearDocumentDefinitions fs path
      else (f.1, f.2.filter (fun d => d.fsPath ≠ path)) :: clearDocumentDefinitions fs path) :=
  rfl

theorem mget_clear (m : List (String × List HandleDefinition)) (path : String)
    (n : String) (hnd : keysNodup m) :
    mget (clearDocumentDefinitions m path) n =
      (if (((mget m n).getD []).filter (fun d => d.fsPath ≠ path)).isEmpty then none
       else some (((mget m n).getD []).filter (fun d => d.fsPath ≠ path))) := by
  induction m with
  | nil => simp [clearDocumentDefinitions, mget]
  | cons f fs ih =>
    unfold keysNodup at hnd
    rw [List.map_cons, List.nodup_cons] at hnd
    rw [clear_cons]
    by_cases hf : f.1 = n
    · subst hf
      have hg : mget (f :: fs) f.1 = some f.2 := by rw [mget, if_pos rfl]
      rw [hg, Option.getD_some]
      by_cases hemp : (f.2.filter (fun d => d.fsPath ≠ path)).isEmpty
      · rw [if_pos hemp, if_pos hemp]
        apply mget_none_of_not_mem_keys
        intro hmem
        exact hnd.1 ((keys_clear_sublist fs path).subset hmem)
      · rw [if_neg hemp, if_neg hemp, mget, if_pos rfl]
    · have hg : mget (f :: fs) n = mget fs n := by rw [mget, if_neg hf]
      rw [hg]
      by_cases hemp : (f.2.filter (fun d => d.fsPath ≠ path)).isEmpty
      · rw [if_pos hemp]
        exact ih hnd.2
      · rw [if_neg hemp, mget, if_neg hf]
        exact ih hnd.2

/-! ## Re-indexing idempotence helpers: extraction equations -/

theorem keysNodup_pushAllDefs (entries : List (String × HandleDefinition)) :
    ∀ (m : List (String × List HandleDefinition)), keysNodup m →
      keysNodup (pushAllDefs m entries) := by
  induction entries with
  | nil => exact fun m h => h
  | cons e es ih =>
    intro m h
    exact ih _ (keysNodup_mset e.1 _ h)

theorem mget_pushAllDefs (entries : List (String × HandleDefinition)) :
    ∀ (m : List (String × List HandleDefinition)) (n : String),
      mget (pushAllDefs m entries) n =
        (if defsOf n entries = [] then mget m n
         else some ((mget m n).getD [] ++ defsOf n entries)) := by
  induction entries with
  | nil => intro m n; simp [pushAllDefs, defsOf]
  | cons e es ih =>
    intro m n
    unfold pushAllDefs
    rw [ih]
    by_cases hk : e.1 = n
    · have hm2 : mget (mset m e.1 ((mget m e.1).getD [] ++ [e.2])) n =
          some ((mget m n).getD [] ++ [e.2]) := by
        rw [← hk]
        exact mget_mset_self m e.1 _
      have hdefs : defsOf n (e :: es) = e.2 :: defsOf n es := by
        simp [defsOf, List.filter_cons, hk]
      rw [hm2, hdefs]
      by_cases hde : defsOf n es = []
      · rw [if_pos hde, hde]
        simp
      · rw [if_neg hde, if_neg (by simp)]
        simp [List.append_assoc]
    · have hne : ¬ n = e.1 := fun hh => hk hh.symm
      have hdefs : defsOf n (e :: es) = defsOf n es := by
        simp [defsOf, List.filter_cons, hk]
      rw [mget_mset_ne m e.1 _ n hne, hdefs]

theorem docDefs_fsPath (document : WlyDocument) :
    ∀ e ∈ docDefs document, e.2.fsPath = document.fsPath := by
  intro e he
  rcases List.mem_filterMap.1 he with ⟨st, hst, hmap⟩
  unfold stepDef at hmap
  by_cases ha : st.lineType = LineType.Attribute
  · rw [if_pos ha] at hmap
    rcases Option.map_eq_some'.1 hmap with ⟨mm, hmm, hmap2⟩
    subst hmap2
    rfl
  · rw [if_neg ha] at hmap
    exact absurd hmap (by simp)

theorem extractStep_defs_eq (fsPath : String)
    (acc : List (String × List HandleDefinition) × List DocumentLink × List Diagnostic)
    (st : Step) :
    (extractStep fsPath acc st).1 =
      (match stepDef fsPath st with
       | none => acc.1
       | some e => mset acc.1 e.1 ((mget acc.1 e.1).getD [] ++ [e.2])) := by
  unfold extractStep stepDef
  dsimp only
  by_cases ha : st.lineType = LineType.Attribute
  · rw [if_pos ha, if_pos ha]
    unfold extractHandleDefinition
    cases hlm : looseDefMatch st.content with
    | none => rfl
    | some mm =>
      obtain ⟨fullMatchText, handleName⟩ := mm
      rfl
  · rw [if_neg ha, if_neg ha]

theorem foldSteps_defs (steps : List Step) (fsPath : String) :
    ∀ (acc : List (String × List HandleDefinition) × List DocumentLink × List Diagnostic),
      (steps.foldl (extractStep fsPath) acc).1 =
        pushAllDefs acc.1 (steps.filterMap (stepDef fsPath)) := by
  induction steps with
  | nil => intro acc; rfl
  | cons st sts ih =>
    intro acc
    rw [List.foldl_cons, List.filterMap_cons]
    cases hsd : stepDef fsPath st with
    | none =>
      have hd : (extractStep fsPath acc st).1 = acc.1 := by
        rw [extractStep_defs_eq, hsd]
      rw [ih, hd]
    | some e =>
      have hd : (extractStep fsPath acc st).1 =
          mset acc.1 e.1 ((mget acc.1 e.1).getD [] ++ [e.2]) := by
        rw [extractStep_defs_eq, hsd]
      rw [ih, hd]
      rfl

theorem extract_defs_eq (definitions : List (String × List HandleDefinition))
    (document : WlyDocument) :
    (extractHandlesFromDocument definitions document).1 =
      pushAllDefs definitions (docDefs document) := by
  unfold extractHandlesFromDocument docDefs
  dsimp only
  exact foldSteps_defs _ _ (definitions, [], [])

theorem extractStep_links_eq (fsPath : String)
    (acc : List (String × List HandleDefinition) × List DocumentLink × List Diagnostic)
    (st : Step) :
    (extractStep fsPath acc st).2.1 = acc.2.1 ++ stepLinks fsPath st := by
  unfold extractStep stepLinks
  dsimp only
  by_cases hs : shouldProcessUsageInLine st.lineType
  · rw [if_pos hs, if_pos hs]
  · rw [if_neg hs, if_neg hs, List.append_nil]

theorem foldSteps_links (steps : List Step) (fsPath : String) :
    ∀ (acc : List (String × List HandleDefinition) × List DocumentLink × List Diagnostic),
      (steps.foldl (extractStep fsPath) acc).2.1 =
        acc.2.1 ++ (steps.map (stepLinks fsPath)).flatten := by
  induction steps with
  | nil => intro acc; simp
  | cons st sts ih =>
    intro acc
    rw [List.foldl_cons, ih, extractStep_links_eq, List.map_cons, List.flatten_cons,
      List.append_assoc]

theorem extract_links_eq (definitions : List (String × List HandleDefinition))
    (document : WlyDocument) :
    (extractHandlesFromDocument definitions document).2.1 = docLinks document := by
  unfold extractHandlesFromDocument docLinks
  dsimp only
  rw [foldSteps_links]
  simp

/-! ## Re-indexing idempotence helpers: the usage counts -/

theorem posOpt_of_WFCounts {u : List (String × Int)} (h : WFCounts u) (n : String) :
    PosOpt (mget u n) := by
  intro c hc
  exact h (n, c) (mget_mem hc)

theorem posOpt_getD_nonneg {v : Option Int} (h : PosOpt v) : 0 ≤ v.getD 0 := by
  cases v with
  | none => simp
  | some c => exact le_of_lt (by simpa using h c rfl)

theorem validateUsageLink_name (definitions : List (String × List HandleDefinition))
    (parents : List String) (cfg : HostConfig) (link : DocumentLink) :
    (validateUsageLink definitions parents cfg link).1.data.handleName =
      link.data.handleName := by
  unfold validateUsageLink
  dsimp only
  split
  · rfl
  · split
    · rfl
    · split
      · rfl
      · split <;> rfl

theorem validate_names (definitions : List (String × List HandleDefinition))
    (parents : List String) (cfg : HostConfig) (links : List DocumentLink) :
    ((validateHandleUsage definitions parents cfg links).1).map
        (fun l => l.data.handleName) =
      links.map (fun l => l.data.handleName) := by
  unfold validateHandleUsage
  dsimp only
  rw [List.map_map, List.map_map]
  apply List.map_congr_left
  intro l _
  exact validateUsageLink_name definitions parents cfg l

theorem mget_foldl_updateUsage (L : List DocumentLink) (delta : Int) :
    ∀ (u : List (String × Int)) (n : String),
      mget (L.foldl (fun u link => updateUsageCount u link.data.handleName delta) u) n =
        applyDeltaIter ((L.map (fun l => l.data.handleName)).count n) (mget u n) delta := by
  induction L with
  | nil => intro u n; rfl
  | cons l ls ih =>
    intro u n
    rw [List.foldl_cons, ih, mget_updateUsageCount]
    by_cases hn : l.data.handleName = n
    · rw [if_pos hn.symm, hn]
      have hc : (((l :: ls).map (fun l => l.data.handleName)).count n) =
          Nat.succ ((ls.map (fun l => l.data.handleName)).count n) := by
        simp [List.count_cons, hn]
      rw [hc]
      rfl
    · rw [if_neg (fun hh => hn hh.symm)]
      have hc : (((l :: ls).map (fun l => l.data.handleName)).count n) =
          ((ls.map (fun l => l.data.handleName)).count n) := by
        simp [List.count_cons, hn]
      rw [hc]

theorem applyDeltaIter_add (k : Nat) :
    ∀ (v : Option Int), PosOpt v →
      applyDeltaIter k v 1 = if k = 0 then v else some (v.getD 0 + k) := by
  induction k with
  | zero => intro v _; rfl
  | succ k ih =>
    intro v hv
    have hnn := posOpt_getD_nonneg hv
    have h1 : applyDelta v 1 = some (v.getD 0 + 1) := by
      unfold applyDelta
      rw [if_neg (by omega)]
    have hpos : PosOpt (some (v.getD 0 + 1)) := by
      intro c hc
      rw [Option.some_inj] at hc
      omega
    show applyDeltaIter k (applyDelta v 1) 1 = _
    rw [h1, ih _ hpos]
    by_cases hk : k = 0
    · subst hk
      rw [if_pos rfl, if_neg (by omega)]
      simp
    · rw [if_neg hk, if_neg (by omega)]
      rw [Option.some_inj, Option.getD_some]
      push_cast
      omega

theorem applyDeltaIter_dec (k : Nat) :
    ∀ (c : Int), 0 ≤ c → k ≠ 0 →
      applyDeltaIter k (some (c + k)) (-1) = if c = 0 then none else some c := by
  induction k with
  | zero => intro c _ hk; exact absurd rfl hk
  | succ k ih =>
    intro c hc _
    show applyDeltaIter k (applyDelta (some (c + (k + 1 : Nat))) (-1)) (-1) = _
    by_cases hk : k = 0
    · subst hk
      have h1 : applyDelta (some (c + (1 : Nat))) (-1) =
          if c = 0 then none else some c := by
        unfold applyDelta
        rw [Option.getD_some]
        by_cases hc0 : c = 0
        · rw [if_pos (by push_cast; omega), if_pos hc0]
        · rw [if_neg (by push_cast; omega), if_neg hc0]
          rw [Option.some_inj]
          push_cast
          omega
      rw [h1]
      rfl
    · have h1 : applyDelta (some (c + (k + 1 : Nat))) (-1) = some (c + k) := by
        unfold applyDelta
        rw [Option.getD_some, if_neg (by push_cast; omega), Option.some_inj]
        push_cast
        omega
      rw [h1]
      exact ih c hc hk

theorem applyDeltaIter_roundtrip (k : Nat) (v : Option Int) (hv : PosOpt v) :
    applyDeltaIter k (applyDeltaIter k (applyDeltaIter k v 1) (-1)) 1 =
      applyDeltaIter k v 1 := by
  by_cases hk : k = 0
  · subst hk
    rfl
  · have hnn := posOpt_getD_nonneg hv
    rw [applyDeltaIter_add k v hv, if_neg hk]
    rw [applyDeltaIter_dec k (v.getD 0) hnn hk]
    by_cases hc0 : v.getD 0 = 0
    · rw [if_pos hc0]
      rw [applyDeltaIter_add k none (fun c hc => by simp at hc), if_neg hk]
      rw [Option.some_inj, hc0]
      simp
    · rw [if_neg hc0]
      have hp : PosOpt (some (v.getD 0)) := by
        intro c hc
        rw [Option.some_inj] at hc
        omega
      rw [applyDeltaIter_add k _ hp, if_neg hk, Option.some_inj, Option.getD_some]

theorem processDocument_definitions_eq (cfg : HostConfig) (s : IndexState)
    (document : WlyDocument) :
    (processDocument cfg s document).1.definitions =
      pushAllDefs (clearDocumentDefinitions s.definitions document.fsPath)
        (docDefs document) := by
  unfold processDocument
  dsimp only
  rw [extract_defs_eq]

theorem processDocument_usageCounts_eq (cfg : HostConfig) (s : IndexState)
    (document : WlyDocument) :
    (processDocument cfg s document).1.usageCounts =
      (docLinks document).foldl (fun u link => updateUsageCount u link.data.handleName 1)
        (((mget s.documentLinks document.fsPath).getD []).foldl
          (fun u link => updateUsageCount u link.data.handleName (-1)) s.usageCounts) := by
  unfold processDocument
  dsimp only
  rw [extract_links_eq]

theorem processDocument_links_names (cfg : HostConfig) (s : IndexState)
    (document : WlyDocument) :
    ((mget (processDocument cfg s document).1.documentLinks document.fsPath).getD []).map
        (fun l => l.data.handleName) =
      (docLinks document).map (fun l => l.data.handleName) := by
  unfold processDocument
  dsimp only
  rw [mget_mset_self, Option.getD_some]
  by_cases hinit : s.isInitialized
  · rw [if_pos hinit]
    dsimp only
    rw [validate_names, extract_links_eq]
  · rw [if_neg hinit]
    dsimp only
    rw [extract_links_eq]

theorem keysNodup_processDocument (cfg : HostConfig) (s : IndexState)
    (document : WlyDocument) (h : keysNodup s.definitions) :
    keysNodup (processDocument cfg s document).1.definitions := by
  rw [processDocument_definitions_eq]
  exact keysNodup_pushAllDefs _ _ (keysNodup_clear _ _ h)

theorem mget_processDocument_definitions (cfg : HostConfig) (s : IndexState)
    (document : WlyDocument) (n : String) (hnd : keysNodup s.definitions) :
    mget (processDocument cfg s document).1.definitions n =
      (if defsOf n (docDefs document) = [] then
        (if (((mget s.definitions n).getD []).filter
            (fun d => d.fsPath ≠ document.fsPath)).isEmpty then none
         else some (((mget s.definitions n).getD []).filter
            (fun d => d.fsPath ≠ document.fsPath)))
       else some ((((mget s.definitions n).getD []).filter
            (fun d => d.fsPath ≠ document.fsPath)) ++ defsOf n (docDefs document))) := by
  rw [processDocument_definitions_eq, mget_pushAllDefs, mget_clear _ _ _ hnd]
  by_cases hdn : defsOf n (docDefs document) = []
  · rw [if_pos hdn, if_pos hdn]
  · rw [if_neg hdn, if_neg hdn]
    congr 1
    by_cases hemp : (((mget s.definitions n).getD []).filter
        (fun d => d.fsPath ≠ document.fsPath)).isEmpty
    · rw [if_pos hemp]
      rw [List.isEmpty_iff.1 hemp]
      rfl
    · rw [if_neg hemp, Option.getD_some]

/-! ## Claim theorems -/

/-- C3: re-indexing the same unchanged document a second time leaves the
definitions map and the usage-count map exactly as after the first run:
for every handle name, the stored definition list and the stored count
agree.  The hypotheses state facts JavaScript `Map`s guarantee by
construction: no duplicate keys in `definitions`, and (maintained by
`updateUsageCount`, claim C8) strictly positive stored counts. -/
theorem c3_reindex_idempotent (cfg : HostConfig) (s : IndexState)
    (document : WlyDocument) (hnd : keysNodup s.definitions)
    (hwf : WFCounts s.usageCounts) :
    (∀ name, mget (processDocument cfg (processDocument cfg s document).1
        document).1.definitions name =
      mget (processDocument cfg s document).1.definitions name) ∧
    (∀ name, mget (processDocument cfg (processDocument cfg s document).1
        document).1.usageCounts name =
      mget (processDocument cfg s document).1.usageCounts name) := by
  constructor
  · intro n
    have hnd1 : keysNodup (processDocument cfg s document).1.definitions :=
      keysNodup_processDocument cfg s document hnd
    have hdnP : ∀ d ∈ defsOf n (docDefs document), d.fsPath = document.fsPath := by
      intro d hd
      rcases List.mem_map.1 hd with ⟨e, he, rfl⟩
      exact docDefs_fsPath document e (List.mem_of_mem_filter he)
    have hbase1_f : (((mget s.definitions n).getD []).filter
          (fun d => d.fsPath ≠ document.fsPath)).filter
          (fun d => d.fsPath ≠ document.fsPath) =
        ((mget s.definitions n).getD []).filter (fun d => d.fsPath ≠ document.fsPath) := by
      apply List.filter_eq_self.2
      intro a ha
      exact (List.mem_filter.1 ha).2
    have hdn_f : (defsOf n (docDefs document)).filter
        (fun d => d.fsPath ≠ document.fsPath) = [] := by
      rw [List.filter_eq_nil_iff]
      intro d hd
      simp [hdnP d hd]
    have hbase2 : ((mget (processDocument cfg s document).1.definitions n).getD []).filter
          (fun d => d.fsPath ≠ document.fsPath) =
        ((mget s.definitions n).getD []).filter (fun d => d.fsPath ≠ document.fsPath) := by
      rw [mget_processDocument_definitions cfg s document n hnd]
      by_cases hdn0 : defsOf n (docDefs document) = []
      · rw [if_pos hdn0]
        by_cases hemp : (((mget s.definitions n).getD []).filter
            (fun d => d.fsPath ≠ document.fsPath)).isEmpty
        · rw [if_pos hemp]
          rw [List.isEmpty_iff.1 hemp]
          rfl
        · rw [if_neg hemp, Option.getD_some, hbase1_f]
      · rw [if_neg hdn0, Option.getD_some, List.filter_append, hbase1_f, hdn_f,
          List.append_nil]
    rw [mget_processDocument_definitions cfg _ document n hnd1, hbase2,
        mget_processDocument_definitions cfg s document n hnd]
  · intro n
    have hcount : (((mget (processDocument cfg s document).1.documentLinks
          document.fsPath).getD []).map (fun l => l.data.handleName)).count n =
        ((docLinks document).map (fun l => l.data.handleName)).count n := by
      rw [processDocument_links_names cfg s document]
    rw [processDocument_usageCounts_eq cfg _ document,
        mget_foldl_updateUsage, mget_foldl_updateUsage, hcount,
        processDocument_usageCounts_eq cfg s document,
        mget_foldl_updateUsage, mget_foldl_updateUsage]
    have hw : PosOpt (applyDeltaIter
        ((((mget s.documentLinks document.fsPath).getD []).map
          (fun l => l.data.handleName)).count n)
        (mget s.usageCounts n) (-1)) := by
      rw [← mget_foldl_updateUsage]
      exact posOpt_of_WFCounts (wf_foldl_links _ _ _ hwf) n
    exact applyDeltaIter_roundtrip _ _ hw

/-- Witness for C3 at the concrete scenario document and an empty
well-formed index. -/
theorem c3_reindex_idempotent_witness :
    (keysNodup emptyInitializedState.definitions ∧
      WFCounts emptyInitializedState.usageCounts) ∧
    mget (processDocument cfgNone
        (processDocument cfgNone emptyInitializedState docScenario).1
        docScenario).1.definitions "intro" =
      mget (processDocument cfgNone emptyInitializedState docScenario).1.definitions
        "intro" :=
  ⟨⟨List.nodup_nil, fun e he => absurd he (List.not_mem_nil e)⟩,
    (c3_reindex_idempotent cfgNone emptyInitializedState docScenario List.nodup_nil
      (fun e he => absurd he (List.not_mem_nil e))).1 "intro"⟩

/-- C8: usage counts stay strictly positive across every index
operation.  `updateUsageCount` deletes an entry whenever the new count
would be zero or below, and preserves positivity of all stored counts;
consequently indexing/re-indexing (`processDocument`), deleting
(`deleteUri`) and the activation scan (`initialScan`) keep every stored
usage count strictly positive. -/
theorem c8_usage_counts_positive :
    (∀ (u : List (String × Int)) (k : String) (delta : Int),
      WFCounts u → WFCounts (updateUsageCount u k delta)) ∧
    (∀ (u : List (String × Int)) (k : String) (delta : Int),
      (mget u k).getD 0 + delta ≤ 0 → mget (updateUsageCount u k delta) k = none) ∧
    (∀ (cfg : HostConfig) (s : IndexState) (document : WlyDocument),
      WFCounts s.usageCounts → WFCounts (processDocument cfg s document).1.usageCounts) ∧
    (∀ (s : IndexState) (targetPath : String),
      WFCounts s.usageCounts → WFCounts (deleteUri s targetPath).usageCounts) ∧
    (∀ (cfg : HostConfig) (openDoc : String → Option (List String))
        (wsFiles : List String),
      WFCounts (initialScan cfg openDoc wsFiles).usageCounts) := by
  refine ⟨wf_updateUsageCount, ?_, wf_processDocument, wf_deleteUri, ?_⟩
  · intro u k delta hle
    unfold updateUsageCount
    dsimp only
    rw [if_pos hle]
    exact mget_mdelete_self u k
  · intro cfg openDoc wsFiles
    unfold initialScan processAllDocuments
    dsimp only
    exact wf_processAllDocuments cfg openDoc _ _ (fun e he => absurd he (List.not_mem_nil e))

/-- Witness for C8: the empty counts are well-formed and stay so across
a concrete indexing run. -/
theorem c8_usage_counts_positive_witness :
    WFCounts emptyInitializedState.usageCounts ∧
    WFCounts (processDocument cfgNone emptyInitializedState docScenario).1.usageCounts :=
  ⟨fun e he => absurd he (List.not_mem_nil e),
    c8_usage_counts_positive.2.2.1 cfgNone emptyInitializedState docScenario
      (fun e he => absurd he (List.not_mem_nil e))⟩

/-- C1: the claim says a captured usage name failing the strict
handle-name grammar is marked Error with an "invalid handle name"
diagnostic and no tree lookup.  The code's test is
`new RegExp("^" + HANDLE_REGEX_STRING + "$")`, whose unparenthesized
alternation detaches the anchors, so the name `ab!` — which fails the
strict grammar — passes the test, the tree lookup runs anyway, and the
emitted diagnostic is "Handle not found" instead of "invalid handle
name". -/
theorem c1_buggy_anchor_lets_invalid_name_through :
    strictFullMatch "ab!" = false ∧
    usageStrictTest "ab!" = true ∧
    ((processDocument cfgNone emptyInitializedState docBang).2.1.map
      (fun l => (l.data.handleName, l.data.validated)) =
      [("ab!", ValidationState.error)]) ∧
    ((processDocument cfgNone emptyInitializedState docBang).2.2 =
      [errorDiagnostic (lineRange 0 4 9) ("Handle \x27ab!\x27 not found")]) := by
  decide

/-- C4 counterexample: the claim says a path like `foo-bar/x.wly` is NOT
under parent directory prefix `foo`.  The code's `isPathUnderParent` is a
plain `startsWith`, and the parent record `foo` is produced by
discovering a marker file `foo__parent.wly`; so `foo-bar/x.wly` and
`foo/y.wly` land in the same tree even though the claim's
separator-aware containment denies it. -/
theorem c4_counterexample :
    discoverParentDirectories ["foo__parent.wly"] = ["foo"] ∧
    isInSameDocumentTree ["foo"] "foo-bar/x.wly" "foo/y.wly" = true ∧
    claimSameDocumentTree ["foo"] "foo-bar/x.wly" "foo/y.wly" = false ∧
    "foo-bar/x.wly" ≠ "foo/y.wly" := by
  decide

theorem charsStartWith_iff (cs ds : List Char) :
    charsStartWith cs ds = true ↔ ds <+: cs := by
  induction ds generalizing cs with
  | nil => simp [charsStartWith]
  | cons d ds ih =>
    cases cs with
    | nil => simp [charsStartWith]
    | cons c cs =>
      simp only [charsStartWith, Bool.and_eq_true, decide_eq_true_eq, ih,
        List.cons_prefix_cons]
      exact ⟨fun h => ⟨h.1.symm, h.2⟩, fun h => ⟨h.1.symm, h.2⟩⟩

theorem jsStartsWith_iff (s pre : String) :
    jsStartsWith s pre = true ↔ pre.data <+: s.data :=
  charsStartWith_iff s.data pre.data

/-- C4 amended: the code's same-tree relation holds exactly when the two
paths are equal or some recorded parent directory is a plain string
prefix of both (no separator requirement); the spec's separator-aware
relation implies the code's, but not conversely (see the
counterexample). -/
theorem c4_amended (parents : List String) (p q : String) :
    (claimSameDocumentTree parents p q = true → isInSameDocumentTree parents p q = true) ∧
    (isInSameDocumentTree parents p q = true ↔
      p = q ∨ ∃ dir ∈ parents, dir.data <+: p.data ∧ dir.data <+: q.data) := by
  have hunder : ∀ (dir f : String),
      claimPathUnderParent f dir = true → dir.data <+: f.data := by
    intro dir f h
    unfold claimPathUnderParent at h
    rw [Bool.or_eq_true, Bool.or_eq_true, decide_eq_true_eq] at h
    rcases h with (h | h) | h
    · subst h
      exact List.prefix_refl _
    · have := (jsStartsWith_iff f (dir ++ "/")).1 h
      rw [String.data_append] at this
      exact (List.prefix_append dir.data "/".data).trans this
    · have := (jsStartsWith_iff f (dir ++ "\\")).1 h
      rw [String.data_append] at this
      exact (List.prefix_append dir.data "\\".data).trans this
  have hiff : isInSameDocumentTree parents p q = true ↔
      p = q ∨ ∃ dir ∈ parents, dir.data <+: p.data ∧ dir.data <+: q.data := by
    unfold isInSameDocumentTree isPathUnderParent
    rw [Bool.or_eq_true, decide_eq_true_eq, List.any_eq_true]
    constructor
    · rintro (h | ⟨dir, hdir, hb⟩)
      · exact Or.inl h
      · rw [Bool.and_eq_true, jsStartsWith_iff, jsStartsWith_iff] at hb
        exact Or.inr ⟨dir, hdir, hb⟩
    · rintro (h | ⟨dir, hdir, hb⟩)
      · exact Or.inl h
      · refine Or.inr ⟨dir, hdir, ?_⟩
        rw [Bool.and_eq_true, jsStartsWith_iff, jsStartsWith_iff]
        exact hb
  constructor
  · intro h
    unfold claimSameDocumentTree at h
    rw [Bool.or_eq_true, decide_eq_true_eq, List.any_eq_true] at h
    refine hiff.2 ?_
    rcases h with h | ⟨dir, hdir, hb⟩
    · exact Or.inl h
    · rw [Bool.and_eq_true] at hb
      exact Or.inr ⟨dir, hdir, hunder dir p hb.1, hunder dir q hb.2⟩
  · exact hiff

/-- Witness for C4 amended: a separator-aware containment instance also
passes the code's prefix test. -/
theorem c4_amended_witness :
    claimSameDocumentTree ["t"] "t/a.wly" "t/b.wly" = true ∧
    isInSameDocumentTree ["t"] "t/a.wly" "t/b.wly" = true :=
  ⟨by decide, (c4_amended ["t"] "t/a.wly" "t/b.wly").1 (by decide)⟩

/-- C5 counterexample: the claim prescribes, for EVERY handle definition
declared in the document, a duplicate-definition Error when more than one
tree definition of the name exists.  With `foo` defined twice in one
document, the code emits exactly one diagnostic, anchored at the first
definition (line 1); the second definition (line 3) receives none. -/
theorem c5_counterexample :
    (mget (processDocument cfgNone emptyInitializedState duplicateDefsDoc).1.definitions
      "foo" =
      some [{ fsPath := "/t/a.wly", range := lineRange 1 11 14 },
            { fsPath := "/t/a.wly", range := lineRange 3 11 14 }]) ∧
    strictFullMatch "foo" = true ∧
    1 < (findValidDefinitions
      (processDocument cfgNone emptyInitializedState duplicateDefsDoc).1.definitions
      [] "foo" "/t/a.wly").length ∧
    ((processDocument cfgNone emptyInitializedState duplicateDefsDoc).2.2 =
      [errorDiagnostic (lineRange 1 11 14)
        "Handle \x27foo\x27 is defined multiple times in this document tree."]) := by
  decide

/-- C5 amended: validation is per handle NAME, not per definition.  For
a `definitions` entry whose first definition local to the validated
document is `localDef`, the entry contributes at most one diagnostic,
anchored at `localDef`, chosen by fixed priority (invalid name Error,
then duplicate-in-tree Error, then — only with the unused-handle toggle
enabled, absent counts reading 0 — an unused Warning), and that
contribution appears in the full `validateHandleDefinitions` output; the
toggle defaults to true when the setting is absent. -/
theorem c5_amended (definitions : List (String × List HandleDefinition))
    (parents : List String) (usageCounts : List (String × Int)) (cfg : HostConfig)
    (currentFsPath name : String) (ds : List HandleDefinition)
    (localDef : HandleDefinition)
    (hget : mget definitions name = some ds)
    (hfind : ds.find? (fun d => d.fsPath = currentFsPath) = some localDef) :
    (validateDefEntry definitions parents usageCounts cfg currentFsPath (name, ds)).length ≤ 1 ∧
    (∀ g ∈ validateDefEntry definitions parents usageCounts cfg currentFsPath (name, ds),
      g ∈ validateHandleDefinitions definitions parents usageCounts cfg currentFsPath) ∧
    (¬ strictFullMatch name = true →
      validateDefEntry definitions parents usageCounts cfg currentFsPath (name, ds) =
        [errorDiagnostic localDef.range (invalidDefinitionMessage name)]) ∧
    (strictFullMatch name = true →
      1 < (findValidDefinitions definitions parents name currentFsPath).length →
      validateDefEntry definitions parents usageCounts cfg currentFsPath (name, ds) =
        [errorDiagnostic localDef.range
          ("Handle \x27" ++ name ++ "\x27 is defined multiple times in this document tree.")]) ∧
    (strictFullMatch name = true →
      (findValidDefinitions definitions parents name currentFsPath).length ≤ 1 →
      isUnusedWarningEnabled cfg = true → (mget usageCounts name).getD 0 = 0 →
      validateDefEntry definitions parents usageCounts cfg currentFsPath (name, ds) =
        [{ range := localDef.range,
           message := "Unused handle: \x27" ++ name ++ "\x27 is defined but never used.",
           severity := Severity.warning }]) ∧
    (strictFullMatch name = true →
      (findValidDefinitions definitions parents name currentFsPath).length ≤ 1 →
      (isUnusedWarningEnabled cfg = false ∨ (mget usageCounts name).getD 0 ≠ 0) →
      validateDefEntry definitions parents usageCounts cfg currentFsPath (name, ds) = []) ∧
    isUnusedWarningEnabled
      { workspaceRoot := cfg.workspaceRoot, enableUnusedHandleWarnings := none } = true := by
  have hmem : (name, ds) ∈ definitions := mget_mem hget
  have hentry : ∀ (g : Diagnostic),
      g ∈ validateDefEntry definitions parents usageCounts cfg currentFsPath (name, ds) →
      g ∈ validateHandleDefinitions definitions parents usageCounts cfg currentFsPath := by
    intro g hg
    unfold validateHandleDefinitions
    exact List.mem_flatten.2
      ⟨validateDefEntry definitions parents usageCounts cfg currentFsPath (name, ds),
        List.mem_map_of_mem _ hmem, hg⟩
  have hbody : validateDefEntry definitions parents usageCounts cfg currentFsPath (name, ds) =
      (if (!strictFullMatch name) = true then
        [errorDiagnostic localDef.range (invalidDefinitionMessage name)]
      else if 1 < (findValidDefinitions definitions parents name currentFsPath).length then
        [errorDiagnostic localDef.range
          ("Handle \x27" ++ name ++ "\x27 is defined multiple times in this document tree.")]
      else if (isUnusedWarningEnabled cfg && decide ((mget usageCounts name).getD 0 = 0)) = true then
        [{ range := localDef.range,
           message := "Unused handle: \x27" ++ name ++ "\x27 is defined but never used.",
           severity := Severity.warning }]
      else []) := by
    unfold validateDefEntry
    dsimp only
    rw [hfind]
  rw [hbody]
  refine ⟨?_, fun g hg => hentry g (hbody ▸ hg), ?_, ?_, ?_, ?_,
    by simp [isUnusedWarningEnabled]⟩
  · split
    · simp
    · split
      · simp
      · split
        · simp
        · simp
  · intro hns
    rw [if_pos (by simp [Bool.eq_false_iff.2 hns])]
  · intro hs hdup
    rw [if_neg (by simp [hs]), if_pos hdup]
  · intro hs hle he hc
    rw [if_neg (by simp [hs]), if_neg (by omega), if_pos (by simp [he, hc])]
  · intro hs hle hor
    rw [if_neg (by simp [hs]), if_neg (by omega), if_neg ?_]
    intro hcc
    rw [Bool.and_eq_true, decide_eq_true_eq] at hcc
    rcases hor with hor | hor
    · rw [hor] at hcc
      exact absurd hcc.1 (by simp)
    · exact absurd hcc.2 hor

/-- Witness for C5 amended at a concrete duplicated-definition map. -/
theorem c5_amended_witness :
    (mget defsFooDup "foo" = some [defFooA, defFooB] ∧
      [defFooA, defFooB].find? (fun d => d.fsPath = "/t/a.wly") = some defFooA) ∧
    (validateDefEntry defsFooDup [] [] cfgNone "/t/a.wly" ("foo", [defFooA, defFooB])).length ≤ 1 :=
  ⟨⟨by decide, by decide⟩,
    (c5_amended defsFooDup [] [] cfgNone "/t/a.wly" "foo" [defFooA, defFooB] defFooA
      (by decide) (by decide)).1⟩

/-! ## Provenance helpers for the workspace-scan cap -/

theorem defsProv_extractHandleDefinition (content : String) (n i : Nat)
    (fsPath : String) (m : List (String × List HandleDefinition)) (P : List String)
    (hm : ∀ e ∈ m, ∀ d ∈ e.2, d.fsPath ∈ P) (hp : fsPath ∈ P) :
    ∀ e ∈ extractHandleDefinition content n i fsPath m, ∀ d ∈ e.2, d.fsPath ∈ P := by
  unfold extractHandleDefinition
  cases hlm : looseDefMatch content with
  | none => exact hm
  | some mres =>
    obtain ⟨fullMatchText, handleName⟩ := mres
    dsimp only
    intro e he d hd
    rcases mem_mset he with rfl | he
    · dsimp only at hd
      rcases List.mem_append.1 hd with hd | hd
      · cases hg : mget m handleName with
        | none => simp [hg] at hd
        | some old => exact hm (handleName, old) (mget_mem hg) d (by simpa [hg] using hd)
      · rw [List.mem_singleton] at hd
        subst hd
        exact hp
    · exact hm e he d hd

theorem defsProv_foldSteps (steps : List Step) (fsPath : String) (P : List String)
    (hp : fsPath ∈ P) :
    ∀ (acc : List (String × List HandleDefinition) × List DocumentLink × List Diagnostic),
      (∀ e ∈ acc.1, ∀ d ∈ e.2, d.fsPath ∈ P) →
      ∀ e ∈ (steps.foldl (extractStep fsPath) acc).1, ∀ d ∈ e.2, d.fsPath ∈ P := by
  induction steps with
  | nil => exact fun acc h => h
  | cons st sts ih =>
    intro acc h
    simp only [List.foldl_cons]
    apply ih
    unfold extractStep
    dsimp only
    split
    · exact defsProv_extractHandleDefinition _ _ _ _ _ P h hp
    · exact h

theorem defsProv_clear (m : List (String × List HandleDefinition)) (path : String)
    (P : List String) (hm : ∀ e ∈ m, ∀ d ∈ e.2, d.fsPath ∈ P) :
    ∀ e ∈ clearDocumentDefinitions m path, ∀ d ∈ e.2, d.fsPath ∈ P := by
  induction m with
  | nil => intro e he; exact absurd he (List.not_mem_nil e)
  | cons f fs ih =>
    have htail := ih (fun e he => hm e (List.mem_cons_of_mem _ he))
    intro e he d hd
    unfold clearDocumentDefinitions at he
    dsimp only at he
    by_cases hemp : (f.2.filter (fun d => d.fsPath ≠ path)).isEmpty
    · rw [if_pos hemp] at he
      exact htail e he d hd
    · rw [if_neg hemp] at he
      rcases List.mem_cons.1 he with rfl | he
      · exact hm f (List.mem_cons_self _ _) d (List.mem_of_mem_filter hd)
      · exact htail e he d hd

theorem prov_processDocument (cfg : HostConfig) (s : IndexState)
    (document : WlyDocument) (P : List String) (hp : document.fsPath ∈ P)
    (hd : ∀ e ∈ s.definitions, ∀ d ∈ e.2, d.fsPath ∈ P)
    (hl : ∀ e ∈ s.documentLinks, e.1 ∈ P) :
    (∀ e ∈ (processDocument cfg s document).1.definitions, ∀ d ∈ e.2, d.fsPath ∈ P) ∧
    (∀ e ∈ (processDocument cfg s document).1.documentLinks, e.1 ∈ P) := by
  unfold processDocument
  dsimp only
  constructor
  · unfold extractHandlesFromDocument
    dsimp only
    exact defsProv_foldSteps _ _ P hp _ (defsProv_clear s.definitions document.fsPath P hd)
  · intro e he
    rcases mem_mset he with rfl | he
    · exact hp
    · exact hl e he

theorem prov_processAllDocuments (cfg : HostConfig)
    (openDoc : String → Option (List String)) (files : List String) (P : List String)
    (hsub : ∀ p ∈ files, p ∈ P) :
    ∀ (s : IndexState),
      (∀ e ∈ s.definitions, ∀ d ∈ e.2, d.fsPath ∈ P) →
      (∀ e ∈ s.documentLinks, e.1 ∈ P) →
      (∀ e ∈ (files.foldl (fun st p =>
          match openDoc p with
          | some lines => (processDocument cfg st { fsPath := p, lines := lines }).1
          | none => st) s).definitions, ∀ d ∈ e.2, d.fsPath ∈ P) ∧
      (∀ e ∈ (files.foldl (fun st p =>
          match openDoc p with
          | some lines => (processDocument cfg st { fsPath := p, lines := lines }).1
          | none => st) s).documentLinks, e.1 ∈ P) := by
  induction files with
  | nil => exact fun s hdd hll => ⟨hdd, hll⟩
  | cons p ps ih =>
    intro s hdd hll
    simp only [List.foldl_cons]
    have hsub2 : ∀ q ∈ ps, q ∈ P := fun q hq => hsub q (List.mem_cons_of_mem _ hq)
    cases hv : openDoc p with
    | some lines =>
      have hpd := prov_processDocument cfg s { fsPath := p, lines := lines } P
        (hsub p (List.mem_cons_self _ _)) hdd hll
      exact ih hsub2 _ hpd.1 hpd.2
    | none => exact ih hsub2 s hdd hll

theorem parents_processDocument (cfg : HostConfig) (s : IndexState)
    (document : WlyDocument) :
    (processDocument cfg s document).1.parents = s.parents := rfl

theorem parents_processAllDocuments (cfg : HostConfig)
    (openDoc : String → Option (List String)) (files : List String) :
    ∀ (s : IndexState), (files.foldl (fun st p =>
        match openDoc p with
        | some lines => (processDocument cfg st { fsPath := p, lines := lines }).1
        | none => st) s).parents = s.parents := by
  induction files with
  | nil => exact fun s => rfl
  | cons p ps ih =>
    intro s
    simp only [List.foldl_cons]
    cases hv : openDoc p with
    | some lines => rw [ih]; exact parents_processDocument cfg s _
    | none => exact ih s

/-- C10: the activation scan queries the host with a cap of
`MAX_FILES = 1500` results for both documents and parent markers: the
set of processed document paths has at most 1500 members, the recorded
parent directories come exactly from the at-most-1500 capped marker
list, and every definition and cached reference list in the resulting
index belongs to one of the processed (capped) documents — files beyond
the cap contribute nothing. -/
theorem c10_initial_scan_cap (cfg : HostConfig)
    (openDoc : String → Option (List String)) (wsFiles : List String) :
    (findFilesCapped wsFiles FILE_EXTENSION).length ≤ MAX_FILES ∧
    (initialScan cfg openDoc wsFiles).parents.length ≤ MAX_FILES ∧
    (initialScan cfg openDoc wsFiles).parents =
      (findFilesCapped wsFiles PARENT_SUFFIX).map parentPath ∧
    (∀ e ∈ (initialScan cfg openDoc wsFiles).definitions, ∀ d ∈ e.2,
      d.fsPath ∈ findFilesCapped wsFiles FILE_EXTENSION) ∧
    (∀ e ∈ (initialScan cfg openDoc wsFiles).documentLinks,
      e.1 ∈ findFilesCapped wsFiles FILE_EXTENSION) := by
  have hparents : (initialScan cfg openDoc wsFiles).parents =
      (findFilesCapped wsFiles PARENT_SUFFIX).map parentPath := by
    unfold initialScan processAllDocuments
    dsimp only
    rw [parents_processAllDocuments]
    rfl
  have hprov := prov_processAllDocuments cfg openDoc
    (findFilesCapped wsFiles FILE_EXTENSION) (findFilesCapped wsFiles FILE_EXTENSION)
    (fun p hp => hp)
    { definitions := [], parents := discoverParentDirectories wsFiles,
      documentLinks := [], usageCounts := [], isInitialized := false }
    (fun e he => absurd he (List.not_mem_nil e))
    (fun e he => absurd he (List.not_mem_nil e))
  refine ⟨?_, ?_, hparents, ?_, ?_⟩
  · exact List.length_take_le _ _
  · rw [hparents, List.length_map]
    exact List.length_take_le _ _
  · exact hprov.1
  · exact hprov.2

/-- Witness for C10: a concrete one-file workspace whose single
definition traces back to a processed (capped) document. -/
theorem c10_initial_scan_cap_witness :
    (("x", [({ fsPath := "/w/a.wly", range := lineRange 1 11 12 } : HandleDefinition)]) ∈
        (initialScan cfgNone openDocFixture wsFixture).definitions ∧
      ({ fsPath := "/w/a.wly", range := lineRange 1 11 12 } : HandleDefinition) ∈
        [({ fsPath := "/w/a.wly", range := lineRange 1 11 12 } : HandleDefinition)]) ∧
    "/w/a.wly" ∈ findFilesCapped wsFixture FILE_EXTENSION :=
  ⟨⟨by decide, by decide⟩,
    (c10_initial_scan_cap cfgNone openDocFixture wsFixture).2.2.2.1
      ("x", [{ fsPath := "/w/a.wly", range := lineRange 1 11 12 }]) (by decide)
      { fsPath := "/w/a.wly", range := lineRange 1 11 12 } (by decide)⟩

/-- C6 counterexample: the claim says the reference extracted from line 2
of the scenario document resolves to the line-1 definition with state Ok.
The loose usage regex captures the trailing sentence period, so the
stored reference is named `intro.` and is marked Error. -/
theorem c6_counterexample :
    (mget (processDocument cfgNone emptyInitializedState docScenario).1.documentLinks
      "/t/a.wly" =
      some [{ range := lineRange 2 8 16,
              data := { handleName := "intro.", fsPath := "/t/a.wly",
                        validated := ValidationState.error } }]) ∧
    "intro." ≠ "intro" := by
  decide

/-- C6 amended: lines 0..2 classify as Tag/Attribute/Text with the
claimed zones and `maxIndent` values, and line 1 records the definition
`intro`; but the line-2 reference is captured as `intro.` (the loose
usage regex includes the trailing period) and is marked Error "not
found".  With the period removed the reference is captured as `intro`,
resolves to exactly the line-1 definition, and is marked Ok. -/
theorem c6_amended :
    ((walk docScenario).1.map (fun st => st.lineType) =
      [LineType.Tag, LineType.Attribute, LineType.Text]) ∧
    ((walk docScenario).1.map (fun st => st.stateAfterLine.zone) =
      [Zone.Attribute, Zone.Attribute, Zone.Text]) ∧
    ((walk docScenario).1.map (fun st => st.stateAfterLine.maxIndent) = [4, 4, 0]) ∧
    (mget (processDocument cfgNone emptyInitializedState docScenario).1.definitions
      "intro" = some [introDefinition]) ∧
    (((mget (processDocument cfgNone emptyInitializedState docScenario).1.documentLinks
        "/t/a.wly").getD []).map (fun l => (l.data.handleName, l.data.validated)) =
      [("intro.", ValidationState.error)]) ∧
    (((processDocument cfgNone emptyInitializedState docScenario).2.2.map
        (fun g => g.message)).head? = some "Handle \x27intro.\x27 not found") ∧
    (((mget (processDocument cfgNone emptyInitializedState docScenarioNoPeriod).1.documentLinks
        "/t/a.wly").getD []).map (fun l => (l.data.handleName, l.data.validated)) =
      [("intro", ValidationState.ok)]) ∧
    (findValidDefinitions
      (processDocument cfgNone emptyInitializedState docScenarioNoPeriod).1.definitions
      [] "intro" "/t/a.wly" = [introDefinition]) := by
  decide

/-- C7 counterexample: the claim says a line inside an open code block
with indentation at least the opening minimum draws no "Indentation not
a multiple of 4" diagnostic.  Line 1 of `docCodeBlock` is inside the
block (zone CodeBlock, minimum 0, indent 2), yet the validator emits
exactly that diagnostic (`d2`). -/
theorem c7_counterexample :
    ((walk docCodeBlock).1.map (fun st => st.lineType) =
      [LineType.CodeBlockOpening, LineType.CodeBlockLine]) ∧
    (((walk docCodeBlock).1.get? 1).map
      (fun st => (st.stateBeforeLine.zone, st.stateBeforeLine.minIndent, st.indent)) =
      some (Zone.CodeBlock, 0, 2)) ∧
    (((walk docCodeBlock).1.map (fun st =>
        validateLine st.stateBeforeLine st.lineType st.stateAfterLine
          st.lineNumber st.indent st.content)).flatten = [d2 1 2]) ∧
    (d2 1 2).message = "Indentation not a multiple of 4" := by
  decide

theorem WB.mono {s : State} {b b2 : Nat} (h : WB s b) (hb : b ≤ b2) : WB s b2 :=
  ⟨h.1, h.2.1, h.2.2.1,
    fun hz => le_trans (h.2.2.2.1 hz) hb,
    fun hz => le_trans (h.2.2.2.2 hz) hb⟩

theorem wb_updateStateInTextZone {s : State} {b : Nat} (n i : Nat) (c : String)
    (hz : s.zone ≠ Zone.CodeBlock) (hmin : s.minIndent = 0)
    (hmax : s.maxIndent ≤ b) (hb : b + 4 ≤ NUMBER_MAX_VALUE) :
    WB (updateStateInTextZone s n i c).1 (b + 4) := by
  unfold updateStateInTextZone
  split
  · -- tag line
    refine ⟨?_, ?_, ?_, ?_, ?_⟩
    · dsimp only; omega
    · intro _; dsimp only; exact hmin
    · intro hh; dsimp only at hh; simp at hh
    · intro hh; dsimp only at hh; simp at hh
    · intro _; dsimp only; omega
  · split
    · -- code block opening line
      refine ⟨?_, ?_, ?_, ?_, ?_⟩
      · dsimp only; omega
      · intro hh; dsimp only at hh; simp at hh
      · intro _; dsimp only
      · intro _; dsimp only; omega
      · intro hh; dsimp only at hh; simp at hh
    · split
      · -- empty line, state unchanged
        refine ⟨?_, ?_, ?_, ?_, ?_⟩
        · dsimp only; omega
        · intro _; dsimp only; exact hmin
        · intro hh; dsimp only at hh; exact absurd hh hz
        · intro hh; dsimp only at hh; exact absurd hh hz
        · intro _; dsimp only; omega
      · -- text or text-comment line
        refine ⟨?_, ?_, ?_, ?_, ?_⟩
        · dsimp only; omega
        · intro _; dsimp only; exact hmin
        · intro hh; dsimp only at hh; exact absurd hh hz
        · intro hh; dsimp only at hh; exact absurd hh hz
        · intro _; dsimp only; omega

theorem wb_updateState {s : State} {b : Nat} (n i : Nat) (c : String)
    (h : WB s b) (hb : b + 4 ≤ NUMBER_MAX_VALUE) :
    WB (updateState s n i c).1 (b + 4) := by
  obtain ⟨h1, h2, h3, h4, h5⟩ := h
  unfold updateState
  cases hz : s.zone with
  | Attribute =>
    dsimp only
    unfold updateStateInAttributeZone
    have hzn : s.zone ≠ Zone.CodeBlock := by rw [hz]; simp
    split
    · exact WB.mono ⟨h1, h2, h3, h4, h5⟩ (by omega)
    · split
      · exact WB.mono ⟨h1, h2, h3, h4, h5⟩ (by omega)
      · exact wb_updateStateInTextZone n i c (by simp) (h2 hzn) (h5 hzn) hb
  | Text =>
    dsimp only
    have hzn : s.zone ≠ Zone.CodeBlock := by rw [hz]; simp
    exact wb_updateStateInTextZone n i c hzn (h2 hzn) (h5 hzn) hb
  | CodeBlock =>
    dsimp only
    unfold updateStateInCodeBlockZone
    have hmaxv := h3 hz
    have hminb := h4 hz
    split
    · -- code block closing line
      refine ⟨?_, ?_, ?_, ?_, ?_⟩
      · dsimp only; omega
      · intro _; dsimp only
      · intro hh; dsimp only at hh; simp at hh
      · intro hh; dsimp only at hh; simp at hh
      · intro _; dsimp only; omega
    · -- code block body line, state unchanged
      refine ⟨?_, ?_, ?_, ?_, ?_⟩
      · dsimp only; exact h1
      · intro hh; dsimp only at hh; rw [hz] at hh; simp at hh
      · intro _; dsimp only; exact hmaxv
      · intro _; dsimp only; omega
      · intro hh; dsimp only at hh; rw [hz] at hh; simp at hh

theorem walkAux_band (lines : List String) :
    ∀ (s : State) (n b : Nat), WB s b → b + 4 * lines.length ≤ NUMBER_MAX_VALUE →
    (∀ st ∈ (walkAux s n lines).1,
      st.stateBeforeLine.minIndent ≤ st.stateBeforeLine.maxIndent ∧
      st.stateAfterLine.minIndent ≤ st.stateAfterLine.maxIndent) ∧
    (walkAux s n lines).2.minIndent ≤ (walkAux s n lines).2.maxIndent := by
  induction lines with
  | nil => exact fun s n b h _ => ⟨fun st hst => by simp [walkAux] at hst, h.1⟩
  | cons raw rest ih =>
    intro s n b h hb
    have hb4 : b + 4 ≤ NUMBER_MAX_VALUE := by
      simp only [List.length_cons] at hb; omega
    have h2 := wb_updateState (s := s) (b := b) n (splitLine raw).1 (splitLine raw).2 h hb4
    have hbrest : (b + 4) + 4 * rest.length ≤ NUMBER_MAX_VALUE := by
      simp only [List.length_cons] at hb; omega
    have ihr := ih (updateState s n (splitLine raw).1 (splitLine raw).2).1 (n + 1) (b + 4)
      h2 hbrest
    constructor
    · intro st hst
      simp only [walkAux, List.mem_cons] at hst
      rcases hst with hst | hst
      · subst hst
        exact ⟨h.1, h2.1⟩
      · exact ihr.1 st hst
    · simpa only [walkAux] using ihr.2

/-- C2: the claim says the Walker never reaches a state with
`minIndent > maxIndent` outside the (permitted) transient moment inside a
code-block transition line.  In fact, for every document whose line count
respects the host's string/array size limit, `minIndent ≤ maxIndent`
holds in every state passed to the per-line callback — before and after
every line, transition lines included — and in the returned final
state. -/
theorem c2_band_invariant (document : WlyDocument)
    (h : 4 * document.lines.length ≤ NUMBER_MAX_VALUE) :
    (∀ st ∈ (walk document).1,
      st.stateBeforeLine.minIndent ≤ st.stateBeforeLine.maxIndent ∧
      st.stateAfterLine.minIndent ≤ st.stateAfterLine.maxIndent) ∧
    (walk document).2.minIndent ≤ (walk document).2.maxIndent :=
  walkAux_band document.lines initialState 0 0
    (by refine ⟨Nat.le_refl 0, fun _ => rfl, ?_, ?_, fun _ => Nat.le_refl 0⟩ <;>
      intro hh <;> simp [initialState] at hh) (by simpa using h)

/-- Witness for C2 at the concrete scenario document. -/
theorem c2_band_invariant_witness :
    4 * docScenario.lines.length ≤ NUMBER_MAX_VALUE ∧
    (walk docScenario).2.minIndent ≤ (walk docScenario).2.maxIndent :=
  ⟨by decide, (c2_band_invariant docScenario (by decide)).2⟩

/-- C7 amended: inside an open code block (a reachable code-block state
has `maxIndent = Number.MAX_VALUE`), a line is classified either as body
or as the closing fence; it closes the block exactly when its content is
the bare fence at exactly the opening indent; and for a body line whose
indent is at least the block's minimum, the indentation validator emits
no "too low"/"too large" diagnostic — but the "Indentation not a
multiple of 4" check still applies. -/
theorem c7_amended (s : State) (n i : Nat) (content : String)
    (hz : s.zone = Zone.CodeBlock) (hmax : s.maxIndent = NUMBER_MAX_VALUE)
    (hmin : s.minIndent ≤ i) (hi : i < NUMBER_MAX_VALUE) :
    ((updateState s n i content).2 = LineType.CodeBlockLine ∨
      (updateState s n i content).2 = LineType.CodeBlockClosing) ∧
    ((updateState s n i content).2 = LineType.CodeBlockClosing ↔
      (content = "```" ∧ i = s.codeBlockStartIndent)) ∧
    ((updateState s n i content).2 = LineType.CodeBlockLine → content ≠ "" →
      validateIndentation s LineType.CodeBlockLine (updateState s n i content).1
        n i content = (if i % 4 = 0 then [] else [d2 n i])) := by
  unfold updateState
  rw [hz]
  dsimp only
  unfold updateStateInCodeBlockZone
  split
  · next hcond =>
    rw [Bool.and_eq_true, decide_eq_true_eq, decide_eq_true_eq] at hcond
    refine ⟨Or.inr rfl, ⟨fun _ => hcond, fun _ => rfl⟩, fun habs _ => ?_⟩
    exact absurd habs (by simp)
  · next hcond =>
    rw [Bool.and_eq_true, decide_eq_true_eq, decide_eq_true_eq] at hcond
    push_neg at hcond
    refine ⟨Or.inl rfl, ⟨fun habs => absurd habs (by simp), fun hc => ?_⟩, fun _ hne => ?_⟩
    · exact absurd (hcond hc.1) (by simp [hc.2])
    · unfold validateIndentation
      rw [if_neg hne]
      have hnotclose : ¬((LineType.CodeBlockLine = LineType.CodeBlockClosing : Bool) &&
          decide ((s, LineType.CodeBlockLine).1.maxIndent < i)) = true := by
        simp
      rw [if_neg hnotclose, if_neg (by dsimp only; omega : ¬ i < (s, LineType.CodeBlockLine).1.minIndent)]
      rw [if_neg (by dsimp only; omega : ¬ (s, LineType.CodeBlockLine).1.maxIndent < i)]
      by_cases h4 : i % 4 = 0
      · simp [h4]
      · simp [h4]

/-- Witness for C7 amended at the code-block body line of
`docCodeBlock`. -/
theorem c7_amended_witness :
    (cbFixtureState.minIndent ≤ 2 ∧ 2 < NUMBER_MAX_VALUE ∧ ("x" : String) ≠ "") ∧
    validateIndentation cbFixtureState LineType.CodeBlockLine
      (updateState cbFixtureState 1 2 "x").1 1 2 "x" = [d2 1 2] :=
  ⟨⟨by decide, by decide, by decide⟩, by
    have h := (c7_amended cbFixtureState 1 2 "x" rfl rfl (by decide) (by decide)).2.2
      (by decide) (by decide)
    simpa using h⟩

/-- C9: the claim says only occurrences whose handle name equals the old
name exactly are rewritten.  The rename regex `^oldName$` is built
without escaping, so for `oldName = a.b` the metacharacter `.` makes the
cached reference to the different handle `axb` match: the produced edit
list rewrites `>>axb` (columns 6-9 of line 1, the two-character marker
left intact) alongside the true definition site — contradicting the
code's own "exact matching only" intent. -/
theorem c9_rename_rewrites_nonequal_name :
    prepareRename docRename 0 8 = some (lineRange 0 7 10, "a.b") ∧
    provideRenameEdits renameState docRename 0 "zzz" =
      some [{ fsPath := "/t/f.wly", range := lineRange 1 6 9, newText := "zzz" },
            { fsPath := "/t/f.wly", range := lineRange 0 7 10, newText := "zzz" }] ∧
    "axb" ≠ "a.b" := by
  decide

end Writerly
